import Mathlib

/-!
Shallow embedding of the 2048 board engine from `src/src/game-2048.tsx`
(Debug-Jeff/2048).  The React component keeps its board as a flat array of
tile objects; the move handler clones the array, sorts the clones towards the
destination wall, walks each tile cell by cell, and merges by removing the two
JS objects and pushing a fresh one.  JS object identity is modelled by the
`key` field: every live tile carries a key that is unique on the board, the
merge removes both participants by key and pushes the merged tile under the
moving tile's key (the source likewise reuses the moving tile's `id` string for
the merged tile).  The display-only `id` string itself is omitted: no game
logic reads it.  `Math.random()` draws are injected as rational parameters
`r1` (cell pick) and `r2` (value pick) in `[0,1)`, matching `Math.random`'s
contract.  JS `Array.prototype.sort` with a comparator is a stable sort
(ES2019); it is modelled by `List.insertionSort`, which is also stable, so the
two produce identical output for the total comparators used here.
-/

namespace Game2048

/-- A board tile; mirrors the `Tile` record of the source minus the display-only
`id` string and `mergedFrom` animation field.  `key` models JS object identity
(see module comment). -/
structure Tile where
  key : Nat
  value : Nat
  row : Int
  col : Int
  justMerged : Bool
  isNew : Bool
deriving DecidableEq, Repr

/-- The four move directions accepted by `move`. -/
inductive Dir where
  | up
  | down
  | left
  | right
deriving DecidableEq, Repr

/-- The `GameState` union type of the source. -/
inductive GameState where
  | start
  | playing
  | paused
  | gameOver
  | victory
deriving DecidableEq, Repr

/-- Row delta of one walk step (source lines 224/228). -/
def dRow : Dir → Int
  | Dir.up => -1
  | Dir.down => 1
  | _ => 0

/-- Column delta of one walk step (source lines 225/229). -/
def dCol : Dir → Int
  | Dir.left => -1
  | Dir.right => 1
  | _ => 0

/-- The comparator passed to `sort` in `move` (source lines 210-216), as the
ordering relation it induces: `a` may come before `b`. -/
def tileLe (dir : Dir) (a b : Tile) : Prop :=
  match dir with
  | Dir.up => a.row ≤ b.row
  | Dir.down => b.row ≤ a.row
  | Dir.left => a.col ≤ b.col
  | Dir.right => b.col ≤ a.col

instance (dir : Dir) : DecidableRel (tileLe dir) := fun a b => by
  cases dir <;> (unfold tileLe; exact inferInstance)

instance (dir : Dir) : IsTotal Tile (tileLe dir) where
  total a b := by cases dir <;> simp only [tileLe] <;> omega

instance (dir : Dir) : IsTrans Tile (tileLe dir) where
  trans a b c := by cases dir <;> simp only [tileLe] <;> omega

/-- Out-of-bounds test of the walk loop (source line 227). -/
def oob (g : Nat) (r c : Int) : Prop :=
  r < 0 ∨ (g : Int) ≤ r ∨ c < 0 ∨ (g : Int) ≤ c

instance (g : Nat) (r c : Int) : Decidable (oob g r c) := by
  unfold oob; exact inferInstance

/-- `newBoard.find((t) => t.row === r && t.col === c)` (source line 233). -/
def findAt (board : List Tile) (r c : Int) : Option Tile :=
  board.find? fun u => decide (u.row = r ∧ u.col = c)

/-- Result of the `while (true)` walk of a single tile (source lines 223-259):
either the tile stops at a cell, or it merges into a target tile found at the
given cell. -/
inductive WalkResult where
  | stop (newRow newCol : Int)
  | merge (target : Tile) (newRow newCol : Int)
deriving DecidableEq, Repr

/-- The `while (true)` loop of `move` (source lines 223-259): step one cell in
the move direction; stop one short on hitting the boundary or a blocking tile;
report a merge when the first blocking tile has equal value and has not merged
this move.  The loop runs at most `g` iterations (each step moves one cell and
the bounds check fires as soon as the position leaves the grid), so any fuel
greater than `g` reproduces it exactly; `processTile` passes `g + 1`. -/
def walk (g : Nat) (board : List Tile) (value : Nat) (dir : Dir) :
    Nat → Int → Int → WalkResult
  | 0, r, c => WalkResult.stop r c
  | fuel + 1, r, c =>
    let nr := r + dRow dir
    let nc := c + dCol dir
    if oob g nr nc then WalkResult.stop r c
    else
      match findAt board nr nc with
      | some target =>
          if target.value = value ∧ target.justMerged = false then
            WalkResult.merge target nr nc
          else WalkResult.stop r c
      | none => walk g board value dir fuel nr nc

/-- The clone at the top of `move` (source line 205): every tile is copied with
`justMerged` and `isNew` reset. -/
def clearFlags (t : Tile) : Tile :=
  { t with justMerged := false, isNew := false }

/-- The mutable locals of `move`: the evolving board and the accumulators
`newScore` (kept as the delta over the incoming score), `changed` and
`mergeHappened`. -/
structure ResolveState where
  newBoard : List Tile
  scoreDelta : Nat
  changed : Bool
  mergeHappened : Bool
deriving DecidableEq, Repr

/-- One iteration of `for (const tile of sortedTiles)` (source lines 218-266).
On a merge the two participating objects are removed (modelled by their keys)
and the merged tile is pushed, reusing the moving tile's identity; otherwise
the tile is relocated in place when its final cell differs from its start.
The source's post-loop assignment to a merged-away object mutates a dead
object and has no effect on the board, so the merge branch omits it. -/
def processTile (g : Nat) (dir : Dir) (st : ResolveState) (tile : Tile) : ResolveState :=
  match walk g st.newBoard tile.value dir (g + 1) tile.row tile.col with
  | WalkResult.merge target nr nc =>
      { newBoard :=
          (st.newBoard.filter fun u => decide (u.key ≠ target.key ∧ u.key ≠ tile.key)) ++
            [{ value := tile.value * 2, key := tile.key, row := nr, col := nc,
               justMerged := true, isNew := false }],
        scoreDelta := st.scoreDelta + tile.value * 2,
        changed := true,
        mergeHappened := true }
  | WalkResult.stop nr nc =>
      if nr = tile.row ∧ nc = tile.col then st
      else
        { st with
          newBoard := st.newBoard.map fun u =>
            if u.key = tile.key then { u with row := nr, col := nc } else u,
          changed := true }

/-- The pure board part of `move` (source lines 205-266): clone and clear
flags, sort the clones towards the destination wall, then resolve each tile in
order. -/
def resolveMove (g : Nat) (board : List Tile) (dir : Dir) : ResolveState :=
  let newBoard := board.map clearFlags
  let sortedTiles := List.insertionSort (tileLe dir) newBoard
  sortedTiles.foldl (processTile g dir)
    { newBoard := newBoard, scoreDelta := 0, changed := false, mergeHappened := false }

/-- Record of one merge performed during a resolution: the moving tile's key,
the stationary target's key, and the merged (doubled) value.  Ghost data used
by the specification; the source only observes it through the score, the
victory check on `tile.value * 2` and the pushed merged tile. -/
structure MergeEvent where
  moverKey : Nat
  targetKey : Nat
  value : Nat
deriving DecidableEq, Repr

/-- The merge events produced by one iteration of the tile loop. -/
def stepEvents (g : Nat) (dir : Dir) (st : ResolveState) (tile : Tile) : List MergeEvent :=
  match walk g st.newBoard tile.value dir (g + 1) tile.row tile.col with
  | WalkResult.merge target _ _ => [{ moverKey := tile.key, targetKey := target.key,
                                      value := tile.value * 2 }]
  | WalkResult.stop _ _ => []

/-- `processTile` instrumented with the list of merge events. -/
def processTileEv (g : Nat) (dir : Dir) (p : ResolveState × List MergeEvent) (tile : Tile) :
    ResolveState × List MergeEvent :=
  (processTile g dir p.1 tile, p.2 ++ stepEvents g dir p.1 tile)

/-- `resolveMove` instrumented with the list of merge events, in the order the
merges happen. -/
def resolveMoveEv (g : Nat) (board : List Tile) (dir : Dir) :
    ResolveState × List MergeEvent :=
  let newBoard := board.map clearFlags
  let sortedTiles := List.insertionSort (tileLe dir) newBoard
  sortedTiles.foldl (processTileEv g dir)
    ({ newBoard := newBoard, scoreDelta := 0, changed := false, mergeHappened := false }, [])

/-- The `emptyTiles` scan of `addNewTile` (source lines 180-187): all grid
cells not occupied by a tile, in row-major order. -/
def emptyCells (g : Nat) (board : List Tile) : List (Int × Int) :=
  (List.range g).flatMap fun (row : Nat) =>
    (List.range g).filterMap fun (col : Nat) =>
      if board.any fun t => decide (t.row = (row : Int) ∧ t.col = (col : Int)) then none
      else some ((row : Int), (col : Int))

/-- `addNewTile` (source lines 179-199) with the two `Math.random()` draws
injected as `r1` (cell pick) and `r2` (value pick) and the fresh object
identity injected as `newKey`.  The inner bounds check is the totalisation of
the JS array index; it always succeeds for draws in `[0,1)`.  A full board is
a silent no-op. -/
def addNewTile (g : Nat) (board : List Tile) (r1 r2 : ℚ) (newKey : Nat) : List Tile :=
  let emptyTiles := emptyCells g board
  if _h : 0 < emptyTiles.length then
    let idx := (⌊r1 * (emptyTiles.length : ℚ)⌋).toNat
    if h2 : idx < emptyTiles.length then
      let cell := emptyTiles.get ⟨idx, h2⟩
      board ++ [{ value := if r2 < (9 : ℚ) / 10 then 2 else 4, key := newKey,
                  row := cell.1, col := cell.2, justMerged := false, isNew := true }]
    else board
  else board

/-- The per-tile neighbour scan of `isGameOverState` (source lines 305-310). -/
def hasNeighborSame (g : Nat) (board : List Tile) (t : Tile) : Bool :=
  (decide (0 < t.row) &&
      board.any fun u => decide (u.row = t.row - 1 ∧ u.col = t.col ∧ u.value = t.value)) ||
  (decide (t.row < (g : Int) - 1) &&
      board.any fun u => decide (u.row = t.row + 1 ∧ u.col = t.col ∧ u.value = t.value)) ||
  (decide (0 < t.col) &&
      board.any fun u => decide (u.row = t.row ∧ u.col = t.col - 1 ∧ u.value = t.value)) ||
  (decide (t.col < (g : Int) - 1) &&
      board.any fun u => decide (u.row = t.row ∧ u.col = t.col + 1 ∧ u.value = t.value))

/-- `isGameOverState` (source lines 300-316): false on a board with fewer than
`g * g` tiles, otherwise true iff no tile has an equal-valued orthogonal
neighbour. -/
def isGameOverState (g : Nat) (board : List Tile) : Bool :=
  if board.length < g * g then false
  else board.all fun t => !(hasNeighborSame g board t)

/-- `Math.max(...board.map((tile) => tile.value), 0)` (source line 448). -/
def maxTileValue (board : List Tile) : Nat :=
  board.foldr (fun t m => max t.value m) 0

/-- The hardcoded victory threshold: the source tests `tile.value * 2 === 2048`
(line 249). -/
def winningValue : Nat := 2048

/-- `checkAchievements` (source lines 431-459): the newly unlocked achievement
ids, in the order the source pushes them. -/
def checkAchievements (score moveCount : Nat) (board : List Tile)
    (achievements : List String) : List String :=
  (if 1000 ≤ score ∧ ¬(achievements.contains "score1000" = true) then ["score1000"] else []) ++
  (if 10000 ≤ score ∧ ¬(achievements.contains "score10000" = true) then ["score10000"] else []) ++
  (if 100 ≤ moveCount ∧ ¬(achievements.contains "moves100" = true) then ["moves100"] else []) ++
  (if 512 ≤ maxTileValue board ∧ ¬(achievements.contains "tile512" = true) then ["tile512"] else []) ++
  (if 1024 ≤ maxTileValue board ∧ ¬(achievements.contains "tile1024" = true) then ["tile1024"] else [])

/-- `addAchievements` (source lines 481-498): append the ids not already
present. -/
def addAchievements (achievements newAch : List String) : List String :=
  let filtered := newAch.filter fun a => !(achievements.contains a)
  if 0 < filtered.length then achievements ++ filtered else achievements

/-- The component state touched by a move: board, score, move count, game
state, the persisted achievement ids, and the allocator for fresh object
identities. -/
structure Session where
  board : List Tile
  score : Nat
  moveCount : Nat
  gameState : GameState
  achievements : List String
  fresh : Nat
deriving DecidableEq, Repr

/-- `move` as a state transition (source lines 202-297) together with the
number of victory firings of the move.  Each merge producing a 2048 tile runs
the check of line 249 against the achievements list captured at the start of
the move (a React closure), so every such merge fires the victory dialog and
toast when `reach2048` is not yet persisted; all the firings together add the
id once and leave the state in `victory` unless the game-over check of lines
281/289 overrides it.  On `changed` the board receives a spawned tile and the
move count increments; otherwise the component state is untouched except for a
possible transition to `gameOver`. -/
def sessionMove (g : Nat) (s : Session) (dir : Dir) (r1 r2 : ℚ) : Session × Nat :=
  if s.gameState ≠ GameState.playing then (s, 0)
  else
    let res := resolveMoveEv g s.board dir
    let st := res.1
    let fireCount :=
      if s.achievements.contains "reach2048" then 0
      else (res.2.filter fun e => decide (e.value = 2048)).length
    let a1 := if 0 < fireCount then s.achievements ++ ["reach2048"] else s.achievements
    let g1 := if 0 < fireCount then GameState.victory else s.gameState
    if st.changed then
      let b1 := addNewTile g st.newBoard r1 r2 s.fresh
      ({ board := b1, score := s.score + st.scoreDelta, moveCount := s.moveCount + 1,
         gameState := if isGameOverState g b1 then GameState.gameOver else g1,
         achievements := a1, fresh := s.fresh + 1 }, fireCount)
    else if isGameOverState g st.newBoard then
      ({ s with gameState := GameState.gameOver, achievements := a1 }, fireCount)
    else ({ s with gameState := g1, achievements := a1 }, fireCount)

/-- `continueAfterVictory` (source lines 536-538). -/
def continueAfterVictory (s : Session) : Session :=
  { s with gameState := GameState.playing }

/-- A sequence of moves, collecting the victory firing count of each move. -/
def playTrace (g : Nat) (s : Session) : List (Dir × ℚ × ℚ) → Session × List Nat
  | [] => (s, [])
  | m :: ms =>
      let r := sessionMove g s m.1 m.2.1 m.2.2
      let rest := playTrace g r.1 ms
      (rest.1, r.2 :: rest.2)

/-- The two seed spawns of `initializeGame` (source lines 166-176). -/
def initialBoard (g : Nat) (r1 r2 r3 r4 : ℚ) : List Tile :=
  addNewTile g (addNewTile g [] r1 r2 0) r3 r4 1

/-! Specification-side vocabulary: measures along and across the move axis,
board validity, blockedness, and the resolution invariant. -/

/-- Progress measure along the move axis: strictly decreases with every walk
step, so the tile nearest the destination wall has the least measure.  The
comparator `tileLe` sorts by this measure ascending. -/
def ordOf (dir : Dir) (r c : Int) : Int :=
  match dir with
  | Dir.up => r
  | Dir.down => -r
  | Dir.left => c
  | Dir.right => -c

/-- The coordinate orthogonal to the move axis; preserved by every walk
step. -/
def crossOf (dir : Dir) (r c : Int) : Int :=
  match dir with
  | Dir.up => c
  | Dir.down => c
  | Dir.left => r
  | Dir.right => r

/-- Least value of `ordOf` attained inside the grid. -/
def ordLow (dir : Dir) (g : Nat) : Int :=
  match dir with
  | Dir.up => 0
  | Dir.left => 0
  | Dir.down => 1 - (g : Int)
  | Dir.right => 1 - (g : Int)

/-- Sum of the values of all tiles on a board. -/
def sumValues (B : List Tile) : Nat :=
  (B.map Tile.value).sum

/-- The keys of a board, in board order. -/
def keysOf (B : List Tile) : List Nat :=
  B.map Tile.key

/-- Two tiles occupy the same cell. -/
def samePos (a b : Tile) : Prop :=
  a.row = b.row ∧ a.col = b.col

instance (a b : Tile) : Decidable (samePos a b) := by
  unfold samePos; exact inferInstance

/-- The data-model invariant of the board: keys are unique (JS object
identities are distinct), at most one tile occupies any cell, and all
coordinates lie inside the grid. -/
def ValidBoard (g : Nat) (B : List Tile) : Prop :=
  (keysOf B).Nodup ∧ (B.Pairwise fun a b => ¬ samePos a b) ∧ ∀ t ∈ B, ¬ oob g t.row t.col

instance (g : Nat) (B : List Tile) : Decidable (ValidBoard g B) := by
  unfold ValidBoard; exact inferInstance

/-- Tile `u` cannot slide in direction `dir` on board `B`: the next cell is
off the grid or holds a tile of different value. -/
def blockedNM (g : Nat) (dir : Dir) (u : Tile) (B : List Tile) : Prop :=
  oob g (u.row + dRow dir) (u.col + dCol dir) ∨
    ∃ w ∈ B, w.row = u.row + dRow dir ∧ w.col = u.col + dCol dir ∧ w.value ≠ u.value

/-- No tile of `B` has a legal slide in direction `dir`: every tile's next
cell is off the grid or occupied by a tile of different value. -/
def noLegalSlide (g : Nat) (dir : Dir) (B : List Tile) : Prop :=
  ∀ u ∈ B, blockedNM g dir u B

instance (g : Nat) (dir : Dir) (u : Tile) (B : List Tile) : Decidable (blockedNM g dir u B) := by
  unfold blockedNM
  infer_instance

instance (g : Nat) (dir : Dir) (B : List Tile) : Decidable (noLegalSlide g dir B) := by
  unfold noLegalSlide
  infer_instance

/-- All keys participating in a list of merge events, movers and targets
alike. -/
def partKeys (evs : List MergeEvent) : List Nat :=
  evs.flatMap fun e => [e.moverKey, e.targetKey]

/-- Invariant of the tile-resolution loop.  `C` is the cleared clone of the
incoming board, `p` the current loop state with its merge events, `rest` the
snapshots still to be processed (a suffix of the sorted clone list). -/
structure MInv (g : Nat) (dir : Dir) (C : List Tile) (p : ResolveState × List MergeEvent)
    (rest : List Tile) : Prop where
  keysND : (keysOf p.1.newBoard).Nodup
  posND : p.1.newBoard.Pairwise fun a b => ¬ samePos a b
  bounds : ∀ u ∈ p.1.newBoard, ¬ oob g u.row u.col
  restMem : ∀ s ∈ rest, s ∈ p.1.newBoard
  origin : ∀ u ∈ p.1.newBoard, ∃ t0 ∈ C, u.key = t0.key ∧
    crossOf dir u.row u.col = crossOf dir t0.row t0.col ∧
    ordOf dir u.row u.col ≤ ordOf dir t0.row t0.col
  sumEq : sumValues p.1.newBoard = sumValues C
  lenEq : p.1.newBoard.length + p.2.length = C.length
  deltaEq : p.1.scoreDelta = (p.2.map MergeEvent.value).sum
  mergeIff : p.1.mergeHappened = false ↔ p.2 = []
  changedMerge : p.1.mergeHappened = true → p.1.changed = true
  evKeysND : (partKeys p.2).Nodup
  targDead : ∀ e ∈ p.2, e.targetKey ∉ keysOf p.1.newBoard
  movMerged : ∀ e ∈ p.2, ∃ u ∈ p.1.newBoard, u.key = e.moverKey ∧ u.justMerged = true
  noMergeClean : p.1.mergeHappened = false → ∀ u ∈ p.1.newBoard, u.justMerged = false
  settledBelow : ∀ u ∈ p.1.newBoard, (∀ s ∈ rest, u ≠ s) → ∀ s ∈ rest,
    ordOf dir u.row u.col ≤ ordOf dir s.row s.col
  settledNM : p.1.mergeHappened = false → ∀ u ∈ p.1.newBoard, (∀ s ∈ rest, u ≠ s) →
    blockedNM g dir u p.1.newBoard
  changedRoom : p.1.changed = true → p.1.mergeHappened = true ∨
    ∃ r c, ¬ oob g r c ∧ ∀ u ∈ p.1.newBoard, ¬ (u.row = r ∧ u.col = c)

/-- Tile `u` sits on one of the four orthogonally adjacent cells of tile
`t`. -/
def adjacentTo (u t : Tile) : Prop :=
  (u.row = t.row - 1 ∧ u.col = t.col) ∨ (u.row = t.row + 1 ∧ u.col = t.col) ∨
    (u.row = t.row ∧ u.col = t.col - 1) ∨ (u.row = t.row ∧ u.col = t.col + 1)

instance (u t : Tile) : Decidable (adjacentTo u t) := by
  unfold adjacentTo; exact inferInstance

/-- Shorthand for a concrete tile with cleared flags, used in concrete
boards. -/
def mkT (k v : Nat) (r c : Int) : Tile :=
  { key := k, value := v, row := r, col := c, justMerged := false, isNew := false }

/-! Basic facts about the measures, the comparator, `findAt` and the walk. -/

theorem tileLe_iff_ord (dir : Dir) (a b : Tile) :
    tileLe dir a b ↔ ordOf dir a.row a.col ≤ ordOf dir b.row b.col := by
  cases dir <;> simp only [tileLe, ordOf] <;> omega

theorem ord_step (dir : Dir) (r c : Int) :
    ordOf dir (r + dRow dir) (c + dCol dir) = ordOf dir r c - 1 := by
  cases dir <;> simp only [ordOf, dRow, dCol] <;> omega

theorem cross_step (dir : Dir) (r c : Int) :
    crossOf dir (r + dRow dir) (c + dCol dir) = crossOf dir r c := by
  cases dir <;> simp only [crossOf, dRow, dCol] <;> omega

theorem ord_low_le {g : Nat} {r c : Int} (dir : Dir) (h : ¬ oob g r c) :
    ordLow dir g ≤ ordOf dir r c := by
  unfold oob at h
  cases dir <;> simp only [ordLow, ordOf] <;> omega

theorem ord_le_high {g : Nat} {r c : Int} (dir : Dir) (h : ¬ oob g r c) :
    ordOf dir r c ≤ ordLow dir g + (g : Int) - 1 := by
  unfold oob at h
  cases dir <;> simp only [ordLow, ordOf] <;> omega

theorem pos_eq_of_ord_cross {dir : Dir} {r c r' c' : Int}
    (ho : ordOf dir r c = ordOf dir r' c') (hc : crossOf dir r c = crossOf dir r' c') :
    r = r' ∧ c = c' := by
  cases dir <;> simp only [ordOf] at ho <;> simp only [crossOf] at hc <;> omega

theorem findAt_eq_some {B : List Tile} {r c : Int} {w : Tile}
    (h : findAt B r c = some w) : w ∈ B ∧ w.row = r ∧ w.col = c := by
  refine ⟨List.mem_of_find?_eq_some h, ?_⟩
  have := List.find?_some h
  simpa using this

theorem findAt_eq_none {B : List Tile} {r c : Int} :
    findAt B r c = none ↔ ∀ u ∈ B, ¬ (u.row = r ∧ u.col = c) := by
  simp [findAt, List.find?_eq_none]

theorem findAt_some_of_mem {B : List Tile} {w : Tile} (hw : w ∈ B) :
    ∃ w', findAt B w.row w.col = some w' ∧ w' ∈ B ∧ w'.row = w.row ∧ w'.col = w.col := by
  have hs : (B.find? fun u => decide (u.row = w.row ∧ u.col = w.col)).isSome = true := by
    rw [List.find?_isSome]
    exact ⟨w, hw, by simp⟩
  obtain ⟨w', hw'⟩ := Option.isSome_iff_exists.mp hs
  exact ⟨w', hw', findAt_eq_some hw'⟩

/-- Full behaviour of the walk loop from an in-grid start with enough fuel:
either the tile stops — at its start or at an empty in-grid cell strictly
nearer the wall on the same line — with the next cell off-grid or blocked by
a tile failing the merge guard, or it merges into the first tile on its path,
an equal-valued tile that has not merged this move, strictly nearer the wall
on the same line. -/
theorem walk_spec (g : Nat) (B : List Tile) (value : Nat) (dir : Dir) :
    ∀ (fuel : Nat) (r c : Int), ¬ oob g r c →
    ordOf dir r c - ordLow dir g < (fuel : Int) →
    (∃ r' c', walk g B value dir fuel r c = WalkResult.stop r' c' ∧
       ((r' = r ∧ c' = c) ∨
        (findAt B r' c' = none ∧ ¬ oob g r' c' ∧
         crossOf dir r' c' = crossOf dir r c ∧ ordOf dir r' c' < ordOf dir r c)) ∧
       (oob g (r' + dRow dir) (c' + dCol dir) ∨
        ∃ w, findAt B (r' + dRow dir) (c' + dCol dir) = some w ∧
          ¬ (w.value = value ∧ w.justMerged = false))) ∨
    (∃ w nr nc, walk g B value dir fuel r c = WalkResult.merge w nr nc ∧
       findAt B nr nc = some w ∧ w.value = value ∧ w.justMerged = false ∧
       ¬ oob g nr nc ∧ crossOf dir nr nc = crossOf dir r c ∧
       ordOf dir nr nc < ordOf dir r c) := by
  intro fuel
  induction fuel with
  | zero =>
      intro r c hin hfuel
      exact absurd hfuel (by have := ord_low_le dir hin; push_cast; omega)
  | succ n ih =>
      intro r c hin hfuel
      by_cases hb : oob g (r + dRow dir) (c + dCol dir)
      · refine Or.inl ⟨r, c, ?_, Or.inl ⟨rfl, rfl⟩, Or.inl hb⟩
        simp [walk, hb]
      · rcases hf : findAt B (r + dRow dir) (c + dCol dir) with _ | w
        · have hord : ordOf dir (r + dRow dir) (c + dCol dir) = ordOf dir r c - 1 :=
            ord_step dir r c
          have hih := ih (r + dRow dir) (c + dCol dir) hb (by omega)
          have hwalk : walk g B value dir (n + 1) r c =
              walk g B value dir n (r + dRow dir) (c + dCol dir) := by
            simp [walk, hb, hf]
          rcases hih with ⟨r', c', heq, hpos, hblock⟩ | ⟨w, nr, nc, heq, hrest⟩
          · refine Or.inl ⟨r', c', by rw [hwalk]; exact heq, ?_, hblock⟩
            rcases hpos with ⟨h1, h2⟩ | ⟨h1, h2, h3, h4⟩
            · subst h1; subst h2
              exact Or.inr ⟨hf, hb, cross_step dir r c, by omega⟩
            · exact Or.inr ⟨h1, h2, by rw [h3]; exact cross_step dir r c, by omega⟩
          · refine Or.inr ⟨w, nr, nc, by rw [hwalk]; exact heq, hrest.1, hrest.2.1,
              hrest.2.2.1, hrest.2.2.2.1, ?_, ?_⟩
            · rw [hrest.2.2.2.2.1]; exact cross_step dir r c
            · have := hrest.2.2.2.2.2; omega
        · by_cases hg : w.value = value ∧ w.justMerged = false
          · refine Or.inr ⟨w, r + dRow dir, c + dCol dir, ?_, hf, hg.1, hg.2, hb,
              cross_step dir r c, by have := ord_step dir r c; omega⟩
            simp [walk, hb, hf, hg]
          · refine Or.inl ⟨r, c, ?_, Or.inl ⟨rfl, rfl⟩, Or.inr ⟨w, hf, hg⟩⟩
            simp [walk, hb, hf, hg]

/-! Helper facts about boards with unique keys and unique positions. -/

theorem key_unique {B : List Tile} (h : (keysOf B).Nodup) {u v : Tile}
    (hu : u ∈ B) (hv : v ∈ B) (hk : u.key = v.key) : u = v :=
  List.inj_on_of_nodup_map h hu hv hk

theorem posAll {B : List Tile} (h : B.Pairwise fun a b => ¬ samePos a b) :
    ∀ a ∈ B, ∀ b ∈ B, a ≠ b → ¬ samePos a b := by
  intro a ha b hb hab
  exact List.Pairwise.forall (by intro x y hxy hs; exact hxy ⟨hs.1.symm, hs.2.symm⟩) h ha hb hab

theorem sumf_filter_one (f : Tile → ℕ) :
    ∀ {B : List Tile}, (keysOf B).Nodup → ∀ {y : Tile}, y ∈ B →
    ((B.filter fun u => decide (u.key ≠ y.key)).map f).sum + f y = (B.map f).sum := by
  intro B
  induction B with
  | nil => intro _ _ h; cases h
  | cons h tl ih =>
      intro hnd y hy
      have hnd' : (keysOf tl).Nodup := (List.nodup_cons.mp hnd).2
      have hknot : h.key ∉ keysOf tl := by
        have := (List.nodup_cons.mp hnd).1
        simpa [keysOf] using this
      rcases List.mem_cons.mp hy with rfl | hy'
      · have hfil : ((y :: tl).filter fun u => decide (u.key ≠ y.key)) = tl := by
          rw [List.filter_cons, if_neg (by simp)]
          apply List.filter_eq_self.mpr
          intro u hu
          simp only [decide_eq_true_eq]
          intro hk
          exact hknot (by rw [← hk]; exact List.mem_map_of_mem Tile.key hu)
        rw [hfil]
        simp [add_comm]
      · have hne : h.key ≠ y.key := by
          intro hk
          exact hknot (by rw [hk]; exact List.mem_map_of_mem Tile.key hy')
        have hfil : ((h :: tl).filter fun u => decide (u.key ≠ y.key)) =
            h :: (tl.filter fun u => decide (u.key ≠ y.key)) := by
          rw [List.filter_cons, if_pos (by simpa using hne)]
        rw [hfil]
        have := ih hnd' hy'
        simp only [List.map_cons, List.sum_cons]
        omega

theorem filter_two_split {B : List Tile} (xk yk : Nat) :
    (B.filter fun u => decide (u.key ≠ xk ∧ u.key ≠ yk)) =
      ((B.filter fun u => decide (u.key ≠ yk)).filter fun u => decide (u.key ≠ xk)) := by
  rw [List.filter_filter]
  apply List.filter_congr
  intro u _
  exact Bool.decide_and _ _

theorem sum_filter_two {B : List Tile} (hnd : (keysOf B).Nodup) {x y : Tile}
    (hx : x ∈ B) (hy : y ∈ B) (hxy : x.key ≠ y.key) :
    ((B.filter fun u => decide (u.key ≠ x.key ∧ u.key ≠ y.key)).map Tile.value).sum
      + x.value + y.value = (B.map Tile.value).sum := by
  rw [filter_two_split]
  have h1 : (keysOf (B.filter fun u => decide (u.key ≠ y.key))).Nodup :=
    List.Nodup.sublist (List.Sublist.map Tile.key (List.filter_sublist B)) hnd
  have hx1 : x ∈ B.filter fun u => decide (u.key ≠ y.key) := by
    rw [List.mem_filter]
    exact ⟨hx, by simpa using hxy⟩
  have h2 := sumf_filter_one Tile.value h1 hx1
  have h3 := sumf_filter_one Tile.value hnd hy
  omega

theorem lenf_filter_one {L : List Tile} (hL : (keysOf L).Nodup) {z : Tile} (hz : z ∈ L) :
    (L.filter fun u => decide (u.key ≠ z.key)).length + 1 = L.length := by
  have := sumf_filter_one (fun _ => 1) hL hz
  simpa [List.map_const, List.sum_replicate] using this

theorem lenf_filter_two {B : List Tile} (hnd : (keysOf B).Nodup) {x y : Tile}
    (hx : x ∈ B) (hy : y ∈ B) (hxy : x.key ≠ y.key) :
    (B.filter fun u => decide (u.key ≠ x.key ∧ u.key ≠ y.key)).length + 2 = B.length := by
  rw [filter_two_split]
  have h1 : (keysOf (B.filter fun u => decide (u.key ≠ y.key))).Nodup :=
    List.Nodup.sublist (List.Sublist.map Tile.key (List.filter_sublist B)) hnd
  have hx1 : x ∈ B.filter fun u => decide (u.key ≠ y.key) := by
    rw [List.mem_filter]
    exact ⟨hx, by simpa using hxy⟩
  have h2 := lenf_filter_one h1 hx1
  have h3 := lenf_filter_one hnd hy
  omega

/-! The invariant is preserved by each iteration of the tile loop. -/

theorem step_inv {g : Nat} {dir : Dir} {C : List Tile} {st : ResolveState}
    {evs : List MergeEvent} {t : Tile} {rest : List Tile}
    (hinv : MInv g dir C (st, evs) (t :: rest))
    (hsorted : (t :: rest).Pairwise (tileLe dir))
    (hknd : ((t :: rest).map Tile.key).Nodup)
    (htjm : t.justMerged = false) :
    MInv g dir C (processTileEv g dir (st, evs) t) rest := by
  obtain ⟨hts, hsrest⟩ := List.pairwise_cons.mp hsorted
  rw [List.map_cons] at hknd
  obtain ⟨hknotin, hkrest⟩ := List.nodup_cons.mp hknd
  have ht : t ∈ st.newBoard := hinv.restMem t (List.mem_cons_self t rest)
  have hin : ¬ oob g t.row t.col := hinv.bounds t ht
  have hfuel : ordOf dir t.row t.col - ordLow dir g < ((g + 1 : Nat) : Int) := by
    have := ord_le_high dir hin
    push_cast
    omega
  have hordle : ∀ s ∈ rest, ordOf dir t.row t.col ≤ ordOf dir s.row s.col := fun s hs =>
    (tileLe_iff_ord dir t s).mp (hts s hs)
  have hrest_keyne : ∀ s ∈ rest, s.key ≠ t.key := by
    intro s hs hk
    exact hknotin (hk ▸ List.mem_map_of_mem Tile.key hs)
  rcases walk_spec g st.newBoard t.value dir (g + 1) t.row t.col hin hfuel with
    ⟨r', c', heq, hpos, hblock⟩ | ⟨w, nr, nc, heq, hfind, hwv, hwjm, hwnoob, hwcross, hword⟩
  · -- the walk stops
    rcases hpos with ⟨h1, h2⟩ | ⟨hnone, hnoob', hcross', hord'⟩
    · -- the tile does not move: the state is unchanged
      subst h1
      subst h2
      have hstep : processTileEv g dir (st, evs) t = (st, evs) := by
        simp [processTileEv, processTile, stepEvents, heq]
      rw [hstep]
      refine ⟨hinv.keysND, hinv.posND, hinv.bounds, ?_, hinv.origin, hinv.sumEq, hinv.lenEq,
        hinv.deltaEq, hinv.mergeIff, hinv.changedMerge, hinv.evKeysND, hinv.targDead,
        hinv.movMerged, hinv.noMergeClean, ?_, ?_, hinv.changedRoom⟩
      · exact fun s hs => hinv.restMem s (List.mem_cons_of_mem t hs)
      · intro u hu hne s hs
        by_cases hut : u = t
        · subst hut
          exact hordle s hs
        · exact hinv.settledBelow u hu
            (by
              intro s' hs'
              rcases List.mem_cons.mp hs' with rfl | h
              · exact hut
              · exact hne s' h)
            s (List.mem_cons_of_mem t hs)
      · intro hmh u hu hne
        by_cases hut : u = t
        · subst hut
          rcases hblock with hb | ⟨w, hfw, hgw⟩
          · exact Or.inl hb
          · obtain ⟨hwmem, hwr, hwc⟩ := findAt_eq_some hfw
            refine Or.inr ⟨w, hwmem, hwr, hwc, ?_⟩
            intro hv
            exact hgw ⟨hv, hinv.noMergeClean hmh w hwmem⟩
        · exact hinv.settledNM hmh u hu
            (by
              intro s' hs'
              rcases List.mem_cons.mp hs' with rfl | h
              · exact hut
              · exact hne s' h)
    · -- the tile relocates to the empty cell where the walk stopped
      have hguard : ¬ (r' = t.row ∧ c' = t.col) := by
        rintro ⟨e1, e2⟩
        rw [e1, e2] at hord'
        exact lt_irrefl _ hord'
      have hstep : processTileEv g dir (st, evs) t =
          ({ st with
              newBoard := st.newBoard.map fun u =>
                if u.key = t.key then { u with row := r', col := c' } else u,
              changed := true }, evs) := by
        simp [processTileEv, processTile, stepEvents, heq, hguard]
      rw [hstep]
      have hkey_upd : ∀ u : Tile,
          ((if u.key = t.key then { u with row := r', col := c' } else u) : Tile).key = u.key := by
        intro u
        by_cases h : u.key = t.key <;> simp [h]
      have hval_upd : ∀ u : Tile,
          ((if u.key = t.key then { u with row := r', col := c' } else u) : Tile).value = u.value := by
        intro u
        by_cases h : u.key = t.key <;> simp [h]
      have hjm_upd : ∀ u : Tile,
          ((if u.key = t.key then { u with row := r', col := c' } else u) : Tile).justMerged
            = u.justMerged := by
        intro u
        by_cases h : u.key = t.key <;> simp [h]
      have hkeys_eq : keysOf (st.newBoard.map fun u =>
          if u.key = t.key then { u with row := r', col := c' } else u) = keysOf st.newBoard := by
        unfold keysOf
        rw [List.map_map]
        exact List.map_congr_left fun u _ => hkey_upd u
      have hukey_t : ∀ u ∈ st.newBoard, u.key = t.key → u = t := fun u hu hk =>
        key_unique hinv.keysND hu ht hk
      have hupd_id : ∀ u ∈ st.newBoard, u.key ≠ t.key →
          ((if u.key = t.key then { u with row := r', col := c' } else u) : Tile) = u := by
        intro u _ hne
        simp [hne]
      have hnone' : ∀ u ∈ st.newBoard, ¬ (u.row = r' ∧ u.col = c') := findAt_eq_none.mp hnone
      have hkeyPW : st.newBoard.Pairwise fun a b => a.key ≠ b.key :=
        List.pairwise_map.mp hinv.keysND
      refine ⟨?_, ?_, ?_, ?_, ?_, ?_, ?_, ?_, ?_, ?_, ?_, ?_, ?_, ?_, ?_, ?_, ?_⟩
      · exact hkeys_eq ▸ hinv.keysND
      · rw [List.pairwise_map]
        refine List.Pairwise.imp_of_mem ?_ (hinv.posND.and hkeyPW)
        rintro a b ha hb ⟨hpos, hkey⟩
        by_cases hat : a.key = t.key
        · have haT : a = t := hukey_t a ha hat
          have hbt : b.key ≠ t.key := by rw [← hat]; exact fun h => hkey h.symm
          rw [hupd_id b hb hbt]
          rw [if_pos hat]
          intro hsp
          exact hnone' b hb ⟨hsp.1.symm, hsp.2.symm⟩
        · rw [hupd_id a ha hat]
          by_cases hbt : b.key = t.key
          · rw [if_pos hbt]
            intro hsp
            exact hnone' a ha ⟨hsp.1, hsp.2⟩
          · rw [hupd_id b hb hbt]
            exact hpos
      · intro v hv
        obtain ⟨u, hu, rfl⟩ := List.mem_map.mp hv
        by_cases hat : u.key = t.key
        · rw [if_pos hat]
          exact hnoob'
        · rw [hupd_id u hu hat]
          exact hinv.bounds u hu
      · intro s hs
        have hsk : s.key ≠ t.key := hrest_keyne s hs
        have hsB : s ∈ st.newBoard := hinv.restMem s (List.mem_cons_of_mem t hs)
        exact List.mem_map.mpr ⟨s, hsB, hupd_id s hsB hsk⟩
      · intro v hv
        obtain ⟨u, hu, rfl⟩ := List.mem_map.mp hv
        by_cases hat : u.key = t.key
        · have haT : u = t := hukey_t u hu hat
          subst haT
          obtain ⟨t0, ht0, hk0, hc0, ho0⟩ := hinv.origin u hu
          rw [if_pos hat]
          refine ⟨t0, ht0, hk0, ?_, ?_⟩
          · show crossOf dir r' c' = _
            rw [hcross']
            exact hc0
          · show ordOf dir r' c' ≤ _
            omega
        · rw [hupd_id u hu hat]
          exact hinv.origin u hu
      · show sumValues _ = _
        unfold sumValues
        have hmv : (st.newBoard.map fun u =>
            if u.key = t.key then { u with row := r', col := c' } else u).map Tile.value =
            st.newBoard.map Tile.value := by
          rw [List.map_map]
          exact List.map_congr_left fun u _ => hval_upd u
        rw [hmv]
        exact hinv.sumEq
      · simpa using hinv.lenEq
      · exact hinv.deltaEq
      · exact hinv.mergeIff
      · intro _
        rfl
      · exact hinv.evKeysND
      · intro e he
        rw [hkeys_eq]
        exact hinv.targDead e he
      · intro e he
        obtain ⟨u, hu, hk, hjm⟩ := hinv.movMerged e he
        refine ⟨(if u.key = t.key then { u with row := r', col := c' } else u),
          List.mem_map.mpr ⟨u, hu, rfl⟩, ?_, ?_⟩
        · rw [hkey_upd]
          exact hk
        · rw [hjm_upd]
          exact hjm
      · intro hmh v hv
        obtain ⟨u, hu, rfl⟩ := List.mem_map.mp hv
        rw [hjm_upd]
        exact hinv.noMergeClean hmh u hu
      · intro v hv hne s hs
        obtain ⟨u, hu, rfl⟩ := List.mem_map.mp hv
        by_cases hat : u.key = t.key
        · rw [if_pos hat]
          show ordOf dir r' c' ≤ _
          have := hordle s hs
          omega
        · rw [hupd_id u hu hat] at hne ⊢
          have hut : u ≠ t := fun h => hat (h ▸ rfl)
          exact hinv.settledBelow u hu
            (by
              intro s' hs'
              rcases List.mem_cons.mp hs' with rfl | h
              · exact hut
              · exact hne s' h)
            s (List.mem_cons_of_mem t hs)
      · intro hmh v hv hne
        have hmh' : st.mergeHappened = false := hmh
        obtain ⟨u, hu, rfl⟩ := List.mem_map.mp hv
        by_cases hat : u.key = t.key
        · have haT : u = t := hukey_t u hu hat
          rw [if_pos hat, haT]
          rcases hblock with hb | ⟨w, hfw, hgw⟩
          · exact Or.inl hb
          · obtain ⟨hwmem, hwr, hwc⟩ := findAt_eq_some hfw
            have hwordlt : ordOf dir w.row w.col < ordOf dir r' c' := by
              rw [hwr, hwc]
              have := ord_step dir r' c'
              omega
            have hwt : w.key ≠ t.key := by
              intro hk
              have hwT : w = t := hukey_t w hwmem hk
              rw [hwT] at hwordlt
              omega
            refine Or.inr ⟨(if w.key = t.key then { w with row := r', col := c' } else w),
              List.mem_map.mpr ⟨w, hwmem, rfl⟩, ?_⟩
            rw [hupd_id w hwmem hwt]
            refine ⟨hwr, hwc, ?_⟩
            intro hv
            exact hgw ⟨hv, hinv.noMergeClean hmh' w hwmem⟩
        · rw [hupd_id u hu hat] at hne ⊢
          have hut : u ≠ t := fun h => hat (h ▸ rfl)
          have hpre : ∀ s' ∈ t :: rest, u ≠ s' := by
            intro s' hs'
            rcases List.mem_cons.mp hs' with rfl | h
            · exact hut
            · exact hne s' h
          rcases hinv.settledNM hmh' u hu hpre with hb | ⟨w, hwmem, hwr, hwc, hwval⟩
          · exact Or.inl hb
          · have huord : ordOf dir u.row u.col ≤ ordOf dir t.row t.col :=
              hinv.settledBelow u hu hpre t (List.mem_cons_self t rest)
            have hwordlt : ordOf dir w.row w.col < ordOf dir t.row t.col := by
              rw [hwr, hwc]
              have := ord_step dir u.row u.col
              omega
            have hwt : w.key ≠ t.key := by
              intro hk
              have hwT : w = t := hukey_t w hwmem hk
              rw [hwT] at hwordlt
              omega
            refine Or.inr ⟨(if w.key = t.key then { w with row := r', col := c' } else w),
              List.mem_map.mpr ⟨w, hwmem, rfl⟩, ?_⟩
            rw [hupd_id w hwmem hwt]
            exact ⟨hwr, hwc, hwval⟩
      · intro _
        refine Or.inr ⟨t.row, t.col, hin, ?_⟩
        intro v hv
        obtain ⟨u, hu, rfl⟩ := List.mem_map.mp hv
        by_cases hat : u.key = t.key
        · rw [if_pos hat]
          rintro ⟨e1, e2⟩
          exact hguard ⟨e1, e2⟩
        · rw [hupd_id u hu hat]
          have hut : u ≠ t := fun h => hat (h ▸ rfl)
          exact fun hsp => posAll hinv.posND u hu t ht hut ⟨hsp.1, hsp.2⟩
  · -- the walk merges the tile into target `w`
    obtain ⟨hwmem, hwr, hwc⟩ := findAt_eq_some hfind
    have hwt : w ≠ t := by
      intro h
      rw [h] at hwr hwc
      rw [hwr, hwc] at hword
      exact lt_irrefl _ hword
    have hkwt : w.key ≠ t.key := fun hk => hwt (key_unique hinv.keysND hwmem ht hk)
    have hKND : (keysOf st.newBoard).Nodup := hinv.keysND
    have hstep : processTileEv g dir (st, evs) t =
        ({ newBoard :=
            (st.newBoard.filter fun u => decide (u.key ≠ w.key ∧ u.key ≠ t.key)) ++
              [{ value := t.value * 2, key := t.key, row := nr, col := nc,
                 justMerged := true, isNew := false }],
           scoreDelta := st.scoreDelta + t.value * 2,
           changed := true,
           mergeHappened := true },
         evs ++ [{ moverKey := t.key, targetKey := w.key, value := t.value * 2 }]) := by
      simp [processTileEv, processTile, stepEvents, heq]
    rw [hstep]
    have hFmem : ∀ u : Tile,
        u ∈ (st.newBoard.filter fun u => decide (u.key ≠ w.key ∧ u.key ≠ t.key)) ↔
          u ∈ st.newBoard ∧ u.key ≠ w.key ∧ u.key ≠ t.key := by
      intro u
      simp [List.mem_filter]
    have hFsub : List.Sublist
        (st.newBoard.filter fun u => decide (u.key ≠ w.key ∧ u.key ≠ t.key))
        st.newBoard := List.filter_sublist _
    have hFkeysND : (keysOf (st.newBoard.filter fun u =>
        decide (u.key ≠ w.key ∧ u.key ≠ t.key))).Nodup :=
      List.Nodup.sublist (List.Sublist.map Tile.key hFsub) hinv.keysND
    have hukey_t : ∀ u ∈ st.newBoard, u.key = t.key → u = t := fun u hu hk =>
      key_unique hinv.keysND hu ht hk
    have htknotF : t.key ∉ keysOf (st.newBoard.filter fun u =>
        decide (u.key ≠ w.key ∧ u.key ≠ t.key)) := by
      intro hmem
      obtain ⟨u, hu, hk⟩ := List.mem_map.mp hmem
      exact ((hFmem u).mp hu).2.2 hk
    have hwknotF : w.key ∉ keysOf (st.newBoard.filter fun u =>
        decide (u.key ≠ w.key ∧ u.key ≠ t.key)) := by
      intro hmem
      obtain ⟨u, hu, hk⟩ := List.mem_map.mp hmem
      exact ((hFmem u).mp hu).2.1 hk
    have htkeyB : t.key ∈ keysOf st.newBoard := List.mem_map_of_mem Tile.key ht
    have hwkeyB : w.key ∈ keysOf st.newBoard := List.mem_map_of_mem Tile.key hwmem
    refine ⟨?_, ?_, ?_, ?_, ?_, ?_, ?_, ?_, ?_, ?_, ?_, ?_, ?_, ?_, ?_, ?_, ?_⟩
    · show (keysOf _).Nodup
      unfold keysOf
      rw [List.map_append]
      rw [List.nodup_append]
      refine ⟨hFkeysND, by simp, ?_⟩
      intro k hk
      simp only [List.map_cons, List.map_nil, List.mem_singleton]
      intro hkt
      exact htknotF (hkt ▸ hk)
    · rw [List.pairwise_append]
      refine ⟨List.Pairwise.sublist hFsub hinv.posND, by simp, ?_⟩
      intro a ha b hb
      rw [List.mem_singleton] at hb
      subst hb
      have haB := ((hFmem a).mp ha).1
      have hakw : a.key ≠ w.key := ((hFmem a).mp ha).2.1
      have haw : a ≠ w := fun h => hakw (h ▸ rfl)
      have := posAll hinv.posND a haB w hwmem haw
      intro hsp
      exact this ⟨by rw [hsp.1, ← hwr], by rw [hsp.2, ← hwc]⟩
    · intro v hv
      rcases List.mem_append.mp hv with hvF | hvm
      · exact hinv.bounds v (hFsub.subset hvF)
      · rw [List.mem_singleton] at hvm
        subst hvm
        exact hwnoob
    · intro s hs
      have hsB : s ∈ st.newBoard := hinv.restMem s (List.mem_cons_of_mem t hs)
      have hsk : s.key ≠ t.key := hrest_keyne s hs
      have hskw : s.key ≠ w.key := by
        intro hk
        have hsw : s = w := key_unique hinv.keysND hsB hwmem hk
        have h1 : ordOf dir s.row s.col = ordOf dir nr nc := by rw [hsw, hwr, hwc]
        have h2 := hordle s hs
        omega
      exact List.mem_append.mpr (Or.inl ((hFmem s).mpr ⟨hsB, hskw, hsk⟩))
    · intro v hv
      rcases List.mem_append.mp hv with hvF | hvm
      · exact hinv.origin v (hFsub.subset hvF)
      · rw [List.mem_singleton] at hvm
        subst hvm
        obtain ⟨t0, ht0, hk0, hc0, ho0⟩ := hinv.origin t ht
        refine ⟨t0, ht0, hk0, ?_, ?_⟩
        · show crossOf dir nr nc = _
          rw [hwcross]
          exact hc0
        · show ordOf dir nr nc ≤ _
          omega
    · show sumValues _ = _
      have hs2 := sum_filter_two hKND hwmem ht hkwt
      have hsum : sumValues st.newBoard = sumValues C := hinv.sumEq
      unfold sumValues at hsum ⊢
      rw [List.map_append, List.sum_append]
      simp only [List.map_cons, List.map_nil, List.sum_cons, List.sum_nil]
      rw [hwv] at hs2
      omega
    · show _ + _ = _
      have hl2 := lenf_filter_two hKND hwmem ht hkwt
      have hlen : st.newBoard.length + evs.length = C.length := hinv.lenEq
      simp only [List.length_append, List.length_cons, List.length_nil] at hlen ⊢
      omega
    · show _ = _
      have hdelta : st.scoreDelta = (evs.map MergeEvent.value).sum := hinv.deltaEq
      simp only [List.map_append, List.sum_append, List.map_cons, List.map_nil,
        List.sum_cons, List.sum_nil]
      omega
    · constructor
      · intro h
        exact absurd h (by simp)
      · intro h
        exact absurd h (by simp)
    · intro _
      rfl
    · show (partKeys _).Nodup
      unfold partKeys
      rw [List.flatMap_append]
      rw [List.nodup_append]
      have htknotEv : t.key ∉ partKeys evs := by
        intro hmem
        unfold partKeys at hmem
        rw [List.mem_flatMap] at hmem
        obtain ⟨e, he, hke⟩ := hmem
        rcases List.mem_pair.mp hke with hk | hk
        · obtain ⟨u, hu, huk, hujm⟩ := hinv.movMerged e he
          have huT : u = t := key_unique hinv.keysND hu ht (by rw [huk, ← hk])
          rw [huT] at hujm
          rw [htjm] at hujm
          exact Bool.false_ne_true hujm
        · exact hinv.targDead e he (by rw [← hk]; exact htkeyB)
      have hwknotEv : w.key ∉ partKeys evs := by
        intro hmem
        unfold partKeys at hmem
        rw [List.mem_flatMap] at hmem
        obtain ⟨e, he, hke⟩ := hmem
        rcases List.mem_pair.mp hke with hk | hk
        · obtain ⟨u, hu, huk, hujm⟩ := hinv.movMerged e he
          have huW : u = w := key_unique hinv.keysND hu hwmem (by rw [huk, ← hk])
          rw [huW] at hujm
          rw [hwjm] at hujm
          exact Bool.false_ne_true hujm
        · exact hinv.targDead e he (by rw [← hk]; exact hwkeyB)
      refine ⟨hinv.evKeysND, ?_, ?_⟩
      · simp [List.flatMap]
        exact fun h => hkwt h.symm
      · intro k hk
        simp only [List.flatMap_cons, List.flatMap_nil, List.append_nil, List.mem_cons,
          List.mem_singleton, List.not_mem_nil]
        rintro (rfl | rfl | h)
        · exact htknotEv hk
        · exact hwknotEv hk
        · exact h
    · intro e he
      rcases List.mem_append.mp he with heOld | heNew
      · have hdead := hinv.targDead e heOld
        intro hmem
        unfold keysOf at hmem
        rw [List.map_append] at hmem
        rcases List.mem_append.mp hmem with hF | hM
        · exact hdead (List.Sublist.map Tile.key hFsub |>.subset hF)
        · simp only [List.map_cons, List.map_nil, List.mem_singleton] at hM
          exact hdead (hM ▸ htkeyB)
      · rw [List.mem_singleton] at heNew
        subst heNew
        intro hmem
        unfold keysOf at hmem
        rw [List.map_append] at hmem
        rcases List.mem_append.mp hmem with hF | hM
        · exact hwknotF hF
        · simp only [List.map_cons, List.map_nil, List.mem_singleton] at hM
          exact hkwt hM
    · intro e he
      rcases List.mem_append.mp he with heOld | heNew
      · obtain ⟨u, hu, huk, hujm⟩ := hinv.movMerged e heOld
        have hukt : u.key ≠ t.key := by
          intro hk
          have huT : u = t := hukey_t u hu hk
          rw [huT, htjm] at hujm
          exact Bool.false_ne_true hujm
        have hukw : u.key ≠ w.key := by
          intro hk
          have huW : u = w := key_unique hinv.keysND hu hwmem hk
          rw [huW, hwjm] at hujm
          exact Bool.false_ne_true hujm
        exact ⟨u, List.mem_append.mpr (Or.inl ((hFmem u).mpr ⟨hu, hukw, hukt⟩)), huk, hujm⟩
      · rw [List.mem_singleton] at heNew
        subst heNew
        exact ⟨_, List.mem_append.mpr (Or.inr (List.mem_singleton.mpr rfl)), rfl, rfl⟩
    · intro hmh
      exact absurd hmh (by simp)
    · intro v hv hne s hs
      rcases List.mem_append.mp hv with hvF | hvm
      · have hvB := ((hFmem v).mp hvF).1
        have hvkt : v.key ≠ t.key := ((hFmem v).mp hvF).2.2
        have hvt : v ≠ t := fun h => hvkt (h ▸ rfl)
        exact hinv.settledBelow v hvB
          (by
            intro s' hs'
            rcases List.mem_cons.mp hs' with rfl | h
            · exact hvt
            · exact hne s' h)
          s (List.mem_cons_of_mem t hs)
      · rw [List.mem_singleton] at hvm
        subst hvm
        show ordOf dir nr nc ≤ _
        have := hordle s hs
        omega
    · intro hmh
      exact absurd hmh (by simp)
    · intro _
      exact Or.inl rfl

/-! The invariant holds at the start of the loop and survives the whole fold. -/

theorem foldl_inv {g : Nat} {dir : Dir} {C : List Tile} :
    ∀ (rest : List Tile) (p : ResolveState × List MergeEvent),
    MInv g dir C p rest → rest.Pairwise (tileLe dir) → (rest.map Tile.key).Nodup →
    (∀ s ∈ rest, s.justMerged = false) →
    MInv g dir C (rest.foldl (processTileEv g dir) p) [] := by
  intro rest
  induction rest with
  | nil =>
      intro p h _ _ _
      simpa using h
  | cons t tl ih =>
      intro p hinv hsorted hknd hclean
      obtain ⟨st, evs⟩ := p
      rw [List.foldl_cons]
      refine ih _ (step_inv hinv hsorted hknd (hclean t (List.mem_cons_self t tl)))
        (List.pairwise_cons.mp hsorted).2 ?_ fun s hs => hclean s (List.mem_cons_of_mem t hs)
      rw [List.map_cons] at hknd
      exact (List.nodup_cons.mp hknd).2

/-- Values are a function of the board only, not of the cleared flags. -/
theorem sumValues_clear (B : List Tile) : sumValues (B.map clearFlags) = sumValues B := by
  unfold sumValues
  rw [List.map_map]
  exact congrArg List.sum (List.map_congr_left fun u _ => rfl)

theorem keysOf_clear (B : List Tile) : keysOf (B.map clearFlags) = keysOf B := by
  unfold keysOf
  rw [List.map_map]
  exact List.map_congr_left fun u _ => rfl

/-- The resolution loop establishes and preserves the invariant: at the end of
`resolveMoveEv` it holds with no tiles left to process. -/
theorem resolveMoveEv_inv {g : Nat} {dir : Dir} {B : List Tile} (hv : ValidBoard g B) :
    MInv g dir (B.map clearFlags) (resolveMoveEv g B dir) [] := by
  obtain ⟨hknd, hpnd, hbnd⟩ := hv
  have hCknd : (keysOf (B.map clearFlags)).Nodup := by
    rw [keysOf_clear]
    exact hknd
  have hCpnd : (B.map clearFlags).Pairwise fun a b => ¬ samePos a b := by
    rw [List.pairwise_map]
    exact hpnd.imp fun h hs => h ⟨hs.1, hs.2⟩
  have hCbnd : ∀ u ∈ B.map clearFlags, ¬ oob g u.row u.col := by
    intro u hu
    obtain ⟨b, hb, rfl⟩ := List.mem_map.mp hu
    exact hbnd b hb
  have hCclean : ∀ u ∈ B.map clearFlags, u.justMerged = false := by
    intro u hu
    obtain ⟨b, hb, rfl⟩ := List.mem_map.mp hu
    rfl
  have hperm : List.Perm (List.insertionSort (tileLe dir) (B.map clearFlags))
      (B.map clearFlags) :=
    List.perm_insertionSort _ _
  have hSsorted : (List.insertionSort (tileLe dir) (B.map clearFlags)).Pairwise (tileLe dir) :=
    List.sorted_insertionSort _ _
  have hSmem : ∀ s ∈ List.insertionSort (tileLe dir) (B.map clearFlags),
      s ∈ B.map clearFlags := fun s hs => hperm.mem_iff.mp hs
  have hSkeys : ((List.insertionSort (tileLe dir) (B.map clearFlags)).map Tile.key).Nodup :=
    ((hperm.map Tile.key).nodup_iff).mpr hCknd
  have hinit : MInv g dir (B.map clearFlags)
      ({ newBoard := B.map clearFlags, scoreDelta := 0, changed := false,
         mergeHappened := false }, [])
      (List.insertionSort (tileLe dir) (B.map clearFlags)) := by
    refine ⟨hCknd, hCpnd, hCbnd, hSmem, ?_, rfl, by simp, rfl, by simp, ?_,
      by simp [partKeys], ?_, ?_, fun _ => hCclean, ?_, ?_, fun h => absurd h (by simp)⟩
    · exact fun u hu => ⟨u, hu, rfl, rfl, le_refl _⟩
    · intro h
      exact absurd h (by simp)
    · intro e he
      exact absurd he (List.not_mem_nil e)
    · intro e he
      exact absurd he (List.not_mem_nil e)
    · intro u hu hne s hs
      exact absurd rfl (hne u (hperm.mem_iff.mpr hu))
    · intro _ u hu hne
      exact absurd rfl (hne u (hperm.mem_iff.mpr hu))
  have hres : resolveMoveEv g B dir =
      (List.insertionSort (tileLe dir) (B.map clearFlags)).foldl (processTileEv g dir)
        ({ newBoard := B.map clearFlags, scoreDelta := 0, changed := false,
           mergeHappened := false }, []) := rfl
  rw [hres]
  exact foldl_inv _ _ hinit hSsorted hSkeys fun s hs => hCclean s (hSmem s hs)

/-- The instrumented fold computes the same `ResolveState` as the plain one. -/
theorem foldl_ev_fst (g : Nat) (dir : Dir) :
    ∀ (l : List Tile) (p : ResolveState × List MergeEvent),
    (l.foldl (processTileEv g dir) p).1 = l.foldl (processTile g dir) p.1 := by
  intro l
  induction l with
  | nil => intro p; rfl
  | cons t tl ih =>
      intro p
      rw [List.foldl_cons, List.foldl_cons, ih]
      rfl

theorem resolveMoveEv_fst (g : Nat) (B : List Tile) (dir : Dir) :
    (resolveMoveEv g B dir).1 = resolveMove g B dir := by
  unfold resolveMoveEv resolveMove
  exact foldl_ev_fst g dir _ _

/-! A board with no legal slide passes through the loop untouched. -/

theorem foldl_noLegal {g : Nat} {dir : Dir} {C : List Tile}
    (hpnd : C.Pairwise fun a b => ¬ samePos a b) (hnls : noLegalSlide g dir C) :
    ∀ (l : List Tile), (∀ s ∈ l, s ∈ C) → ∀ (evs : List MergeEvent),
    l.foldl (processTileEv g dir)
      ({ newBoard := C, scoreDelta := 0, changed := false, mergeHappened := false }, evs) =
      ({ newBoard := C, scoreDelta := 0, changed := false, mergeHappened := false }, evs) := by
  intro l
  induction l with
  | nil => intro _ evs; rfl
  | cons t tl ih =>
      intro hmem evs
      rw [List.foldl_cons]
      have ht : t ∈ C := hmem t (List.mem_cons_self t tl)
      have hstep : processTileEv g dir
          ({ newBoard := C, scoreDelta := 0, changed := false, mergeHappened := false }, evs) t =
          ({ newBoard := C, scoreDelta := 0, changed := false, mergeHappened := false }, evs) := by
        by_cases hb2 : oob g (t.row + dRow dir) (t.col + dCol dir)
        · have hwalk : walk g C t.value dir (g + 1) t.row t.col =
              WalkResult.stop t.row t.col := by
            simp [walk, hb2]
          simp [processTileEv, processTile, stepEvents, hwalk]
        · rcases hnls t ht with hb | ⟨w, hwmem, hwr, hwc, hwv⟩
          · exact absurd hb hb2
          · obtain ⟨w', hfw', hw'mem, hw'r, hw'c⟩ := findAt_some_of_mem hwmem
            rw [hwr, hwc] at hfw'
            have hww : w' = w := by
              by_contra hne
              exact posAll hpnd w' hw'mem w hwmem hne ⟨hw'r, hw'c⟩
            have hguard : ¬ (w'.value = t.value ∧ w'.justMerged = false) := by
              rintro ⟨h1, _⟩
              rw [hww] at h1
              exact hwv h1
            have hwalk : walk g C t.value dir (g + 1) t.row t.col =
                WalkResult.stop t.row t.col := by
              simp [walk, hb2, findAt] at hfw' ⊢
              simp [hfw', hguard]
            simp [processTileEv, processTile, stepEvents, hwalk]
      rw [hstep]
      exact ih (fun s hs => hmem s (List.mem_cons_of_mem t hs)) evs

theorem resolveMoveEv_noLegal {g : Nat} {dir : Dir} {B : List Tile}
    (hpnd : B.Pairwise fun a b => ¬ samePos a b) (hnls : noLegalSlide g dir B) :
    resolveMoveEv g B dir =
      ({ newBoard := B.map clearFlags, scoreDelta := 0, changed := false,
         mergeHappened := false }, []) := by
  have hCpnd : (B.map clearFlags).Pairwise fun a b => ¬ samePos a b := by
    rw [List.pairwise_map]
    exact hpnd.imp fun h hs => h ⟨hs.1, hs.2⟩
  have hCnls : noLegalSlide g dir (B.map clearFlags) := by
    intro u hu
    obtain ⟨b, hb, rfl⟩ := List.mem_map.mp hu
    rcases hnls b hb with hbo | ⟨w, hwm, hwr, hwc, hwv⟩
    · exact Or.inl hbo
    · exact Or.inr ⟨clearFlags w, List.mem_map_of_mem clearFlags hwm, hwr, hwc, hwv⟩
  have hperm : List.Perm (List.insertionSort (tileLe dir) (B.map clearFlags))
      (B.map clearFlags) := List.perm_insertionSort _ _
  have hres : resolveMoveEv g B dir =
      (List.insertionSort (tileLe dir) (B.map clearFlags)).foldl (processTileEv g dir)
        ({ newBoard := B.map clearFlags, scoreDelta := 0, changed := false,
           mergeHappened := false }, []) := rfl
  rw [hres]
  exact foldl_noLegal hCpnd hCnls _ (fun s hs => hperm.mem_iff.mp hs) []

/-! Consequences of the invariant for the resolver, stated over the incoming
board. -/

theorem resolve_board_valid {g : Nat} {dir : Dir} {B : List Tile} (hv : ValidBoard g B) :
    ValidBoard g (resolveMove g B dir).newBoard := by
  have h := @resolveMoveEv_inv g dir B hv
  rw [← resolveMoveEv_fst]
  exact ⟨h.keysND, h.posND, h.bounds⟩

theorem resolve_sum {g : Nat} {dir : Dir} {B : List Tile} (hv : ValidBoard g B) :
    sumValues (resolveMove g B dir).newBoard = sumValues B := by
  have h := (@resolveMoveEv_inv g dir B hv).sumEq
  rw [sumValues_clear] at h
  rw [← resolveMoveEv_fst]
  exact h

theorem resolve_delta_events {g : Nat} {dir : Dir} {B : List Tile} (hv : ValidBoard g B) :
    (resolveMove g B dir).scoreDelta = ((resolveMoveEv g B dir).2.map MergeEvent.value).sum := by
  have h := (@resolveMoveEv_inv g dir B hv).deltaEq
  rw [← resolveMoveEv_fst]
  exact h

theorem resolve_events_nodup {g : Nat} {dir : Dir} {B : List Tile} (hv : ValidBoard g B) :
    (partKeys (resolveMoveEv g B dir).2).Nodup :=
  (@resolveMoveEv_inv g dir B hv).evKeysND

theorem resolve_len {g : Nat} {dir : Dir} {B : List Tile} (hv : ValidBoard g B) :
    (resolveMove g B dir).newBoard.length + (resolveMoveEv g B dir).2.length = B.length := by
  have h := (@resolveMoveEv_inv g dir B hv).lenEq
  rw [← resolveMoveEv_fst]
  rw [List.length_map] at h
  exact h

theorem resolve_origin {g : Nat} {dir : Dir} {B : List Tile} (hv : ValidBoard g B) :
    ∀ u ∈ (resolveMove g B dir).newBoard, ∃ t0 ∈ B, u.key = t0.key ∧
      crossOf dir u.row u.col = crossOf dir t0.row t0.col ∧
      ordOf dir u.row u.col ≤ ordOf dir t0.row t0.col := by
  have h := (@resolveMoveEv_inv g dir B hv).origin
  rw [← resolveMoveEv_fst]
  intro u hu
  obtain ⟨t0, ht0, hk, hc, ho⟩ := h u hu
  obtain ⟨b, hb, rfl⟩ := List.mem_map.mp ht0
  exact ⟨b, hb, hk, hc, ho⟩

theorem resolve_noLegal_of_noMerge {g : Nat} {dir : Dir} {B : List Tile} (hv : ValidBoard g B)
    (h : (resolveMove g B dir).mergeHappened = false) :
    noLegalSlide g dir (resolveMove g B dir).newBoard := by
  have hinv := @resolveMoveEv_inv g dir B hv
  rw [← resolveMoveEv_fst] at h ⊢
  intro u hu
  exact hinv.settledNM h u hu fun s hs => absurd hs (List.not_mem_nil s)

theorem resolve_noLegal_state {g : Nat} {dir : Dir} {B : List Tile}
    (hpnd : B.Pairwise fun a b => ¬ samePos a b) (hnls : noLegalSlide g dir B) :
    resolveMove g B dir =
      { newBoard := B.map clearFlags, scoreDelta := 0, changed := false,
        mergeHappened := false } := by
  rw [← resolveMoveEv_fst, resolveMoveEv_noLegal hpnd hnls]

/-- Settling is idempotent as long as the first pass merged nothing: the merge
guard would have fired on any remaining adjacent equal pair. -/
theorem resolve_twice_unchanged {g : Nat} {dir : Dir} {B : List Tile} (hv : ValidBoard g B)
    (h : (resolveMove g B dir).mergeHappened = false) :
    (resolveMove g (resolveMove g B dir).newBoard dir).changed = false := by
  have hv' := @resolve_board_valid g dir B hv
  have hnls := resolve_noLegal_of_noMerge hv h
  rw [resolve_noLegal_state hv'.2.1 hnls]

/-! The spawn generator: empty cells, and the characterisation of
`addNewTile` over the injected draws. -/

theorem emptyCells_mem {g : Nat} {B : List Tile} {r c : Int} :
    (r, c) ∈ emptyCells g B ↔
      (0 ≤ r ∧ r < (g : Int) ∧ 0 ≤ c ∧ c < (g : Int)) ∧
        ∀ t ∈ B, ¬ (t.row = r ∧ t.col = c) := by
  unfold emptyCells
  rw [List.mem_flatMap]
  constructor
  · rintro ⟨row, hrow, hmem⟩
    rw [List.mem_filterMap] at hmem
    obtain ⟨col, hcol, hsome⟩ := hmem
    rw [List.mem_range] at hrow hcol
    by_cases hocc : (B.any fun t => decide (t.row = (row : Int) ∧ t.col = (col : Int))) = true
    · rw [if_pos hocc] at hsome
      cases hsome
    · rw [if_neg hocc] at hsome
      have hrc : (row : Int) = r ∧ (col : Int) = c := by
        have := Option.some.inj hsome
        exact ⟨congrArg Prod.fst this, congrArg Prod.snd this⟩
      obtain ⟨hr, hc⟩ := hrc
      subst hr
      subst hc
      refine ⟨⟨by positivity, by exact_mod_cast hrow, by positivity, by exact_mod_cast hcol⟩, ?_⟩
      intro t htB hcontra
      apply hocc
      rw [List.any_eq_true]
      exact ⟨t, htB, by simpa using hcontra⟩
  · rintro ⟨⟨h1, h2, h3, h4⟩, hemp⟩
    refine ⟨r.toNat, ?_, ?_⟩
    · rw [List.mem_range]
      omega
    · rw [List.mem_filterMap]
      refine ⟨c.toNat, by rw [List.mem_range]; omega, ?_⟩
      have hr' : ((r.toNat : Nat) : Int) = r := Int.toNat_of_nonneg h1
      have hc' : ((c.toNat : Nat) : Int) = c := Int.toNat_of_nonneg h3
      rw [if_neg]
      · rw [hr', hc']
      · rw [List.any_eq_true]
        rintro ⟨t, htB, ht⟩
        rw [decide_eq_true_eq] at ht
        rw [hr', hc'] at ht
        exact hemp t htB ht

/-- A valid board occupies at most the whole grid. -/
theorem valid_length_le {g : Nat} {B : List Tile} (hv : ValidBoard g B) :
    B.length ≤ g * g := by
  obtain ⟨_, hpnd, hbnd⟩ := hv
  have hnd : (B.map fun t => (t.row, t.col)).Nodup := by
    refine List.Pairwise.map _ (fun a b h heq => ?_) hpnd
    exact h ⟨congrArg Prod.fst heq, congrArg Prod.snd heq⟩
  have hsub : (B.map fun t => (t.row, t.col)).toFinset ⊆
      Finset.Ico (0 : Int) (g : Int) ×ˢ Finset.Ico (0 : Int) (g : Int) := by
    intro p hp
    rw [List.mem_toFinset, List.mem_map] at hp
    obtain ⟨t, htB, rfl⟩ := hp
    have := hbnd t htB
    unfold oob at this
    rw [Finset.mem_product, Finset.mem_Ico, Finset.mem_Ico]
    constructor
    · constructor <;> omega
    · constructor <;> omega
  have hcard := Finset.card_le_card hsub
  rw [List.toFinset_card_of_nodup hnd, List.length_map, Finset.card_product,
    Int.card_Ico] at hcard
  simpa using hcard

/-- A valid board that does not fill the grid leaves an empty cell for the
spawn. -/
theorem emptyCells_pos {g : Nat} {B : List Tile} (hv : ValidBoard g B)
    (hlen : B.length < g * g) : 0 < (emptyCells g B).length := by
  obtain ⟨_, hpnd, hbnd⟩ := hv
  have hnd : (B.map fun t => (t.row, t.col)).Nodup := by
    refine List.Pairwise.map _ (fun a b h heq => ?_) hpnd
    exact h ⟨congrArg Prod.fst heq, congrArg Prod.snd heq⟩
  have hcard : (B.map fun t => (t.row, t.col)).toFinset.card <
      (Finset.Ico (0 : Int) (g : Int) ×ˢ Finset.Ico (0 : Int) (g : Int)).card := by
    rw [List.toFinset_card_of_nodup hnd, List.length_map, Finset.card_product, Int.card_Ico]
    simpa using hlen
  have hex : ∃ p ∈ Finset.Ico (0 : Int) (g : Int) ×ˢ Finset.Ico (0 : Int) (g : Int),
      p ∉ (B.map fun t => (t.row, t.col)).toFinset := by
    by_contra hall
    push_neg at hall
    exact absurd (Finset.card_le_card hall) (by omega)
  obtain ⟨⟨r, c⟩, hpgrid, hpnotin⟩ := hex
  rw [Finset.mem_product, Finset.mem_Ico, Finset.mem_Ico] at hpgrid
  have hmem : (r, c) ∈ emptyCells g B := by
    rw [emptyCells_mem]
    refine ⟨⟨hpgrid.1.1, hpgrid.1.2, hpgrid.2.1, hpgrid.2.2⟩, ?_⟩
    intro t htB ⟨h1, h2⟩
    apply hpnotin
    rw [List.mem_toFinset, List.mem_map]
    exact ⟨t, htB, by rw [h1, h2]⟩
  exact List.length_pos.mpr (List.ne_nil_of_mem hmem)

theorem addNewTile_full {g : Nat} {B : List Tile} {r1 r2 : ℚ} {k : Nat}
    (h : emptyCells g B = []) : addNewTile g B r1 r2 k = B := by
  simp [addNewTile, h]

/-- Selecting with a draw satisfying `i ≤ r1·n < i+1` — that is, `r1` in the
interval `[i/n, (i+1)/n)` — lands on the `i`-th empty cell: each empty cell is
selected by an interval of draws of equal length `1/n`, which is the
uniform-choice contract of the source's
`Math.floor(Math.random() * emptyTiles.length)`. -/
theorem addNewTile_spec {g : Nat} {B : List Tile} {r1 r2 : ℚ} {k : Nat} {i : Nat}
    (hi : i < (emptyCells g B).length)
    (h1 : (i : ℚ) ≤ r1 * ((emptyCells g B).length : ℚ))
    (h2 : r1 * ((emptyCells g B).length : ℚ) < (i : ℚ) + 1) :
    addNewTile g B r1 r2 k =
      B ++ [{ value := if r2 < (9 : ℚ) / 10 then 2 else 4, key := k,
              row := ((emptyCells g B).get ⟨i, hi⟩).1,
              col := ((emptyCells g B).get ⟨i, hi⟩).2,
              justMerged := false, isNew := true }] := by
  have hlen0 : 0 < (emptyCells g B).length := lt_of_le_of_lt (Nat.zero_le i) hi
  have hfloor : ⌊r1 * ((emptyCells g B).length : ℚ)⌋ = (i : Int) := by
    rw [Int.floor_eq_iff]
    constructor
    · push_cast
      linarith
    · push_cast
      linarith
  have hidx : (⌊r1 * ((emptyCells g B).length : ℚ)⌋).toNat = i := by
    rw [hfloor]
    exact Int.toNat_natCast i
  simp [addNewTile, hlen0, hidx, hi]

/-- Any draw in `[0,1)` spawns exactly one tile on a board with an empty
cell. -/
theorem addNewTile_range {g : Nat} {B : List Tile} {r1 r2 : ℚ} {k : Nat}
    (hlen : 0 < (emptyCells g B).length) (h0 : 0 ≤ r1) (h1 : r1 < 1) :
    ∃ (i : Nat) (hi : i < (emptyCells g B).length),
      addNewTile g B r1 r2 k =
        B ++ [{ value := if r2 < (9 : ℚ) / 10 then 2 else 4, key := k,
                row := ((emptyCells g B).get ⟨i, hi⟩).1,
                col := ((emptyCells g B).get ⟨i, hi⟩).2,
                justMerged := false, isNew := true }] := by
  have hlenQ : (0 : ℚ) < ((emptyCells g B).length : ℚ) := by exact_mod_cast hlen
  have hfl0 : 0 ≤ ⌊r1 * ((emptyCells g B).length : ℚ)⌋ := by
    rw [Int.le_floor]
    push_cast
    positivity
  have hflt : ⌊r1 * ((emptyCells g B).length : ℚ)⌋ < ((emptyCells g B).length : Int) := by
    rw [Int.floor_lt]
    push_cast
    nlinarith
  have hidx : (⌊r1 * ((emptyCells g B).length : ℚ)⌋).toNat < (emptyCells g B).length := by
    rw [Int.toNat_lt hfl0]
    exact_mod_cast hflt
  refine ⟨_, hidx, ?_⟩
  simp [addNewTile, hlen, hidx]

/-- The spawned tile preserves board validity: the picked cell is empty and in
bounds, and the injected key is fresh. -/
theorem addNewTile_preserves_valid {g : Nat} {B : List Tile} {r1 r2 : ℚ} {k : Nat}
    (hv : ValidBoard g B) (hk : k ∉ keysOf B) (h0 : 0 ≤ r1) (h1 : r1 < 1) :
    ValidBoard g (addNewTile g B r1 r2 k) := by
  by_cases hlen : 0 < (emptyCells g B).length
  · obtain ⟨i, hi, heq⟩ := @addNewTile_range g B r1 r2 k hlen h0 h1
    rw [heq]
    have hcellmem : (emptyCells g B).get ⟨i, hi⟩ ∈ emptyCells g B := List.get_mem _ i hi
    have hcell := emptyCells_mem.mp
      (hcellmem :
        (((emptyCells g B).get ⟨i, hi⟩).1, ((emptyCells g B).get ⟨i, hi⟩).2) ∈ emptyCells g B)
    obtain ⟨⟨hb1, hb2, hb3, hb4⟩, hempcell⟩ := hcell
    obtain ⟨hknd, hpnd, hbnd⟩ := hv
    refine ⟨?_, ?_, ?_⟩
    · unfold keysOf
      rw [List.map_append, List.nodup_append]
      refine ⟨hknd, by simp, ?_⟩
      intro a ha
      simp only [List.map_cons, List.map_nil, List.mem_singleton]
      intro hak
      exact hk (hak ▸ ha)
    · rw [List.pairwise_append]
      refine ⟨hpnd, by simp, ?_⟩
      intro a ha b hb
      rw [List.mem_singleton] at hb
      subst hb
      intro hsp
      exact hempcell a ha ⟨hsp.1, hsp.2⟩
    · intro u hu
      rcases List.mem_append.mp hu with huB | hum
      · exact hbnd u huB
      · rw [List.mem_singleton] at hum
        subst hum
        unfold oob
        push_neg
        exact ⟨hb1, hb2, hb3, hb4⟩
  · have hnil : emptyCells g B = [] := by
      rw [← List.length_eq_zero]
      omega
    rw [addNewTile_full hnil]
    exact hv

/-! The terminal evaluator. -/

/-- `isGameOverState` on a valid board: true exactly when the board fills the
grid and no tile has an orthogonal neighbour of equal value. -/
theorem isGameOver_iff {g : Nat} {B : List Tile} (hv : ValidBoard g B) :
    isGameOverState g B = true ↔
      B.length = g * g ∧ ∀ t ∈ B, ∀ u ∈ B, adjacentTo u t → u.value ≠ t.value := by
  by_cases hlt : B.length < g * g
  · unfold isGameOverState
    rw [if_pos hlt]
    simp only [Bool.false_eq_true, false_iff]
    rintro ⟨hlen, _⟩
    omega
  · unfold isGameOverState
    rw [if_neg hlt]
    have hlen : B.length = g * g := le_antisymm (valid_length_le hv) (not_lt.mp hlt)
    constructor
    · intro hall
      refine ⟨hlen, ?_⟩
      intro t ht u hu hadj hval
      have hbu := hv.2.2 u hu
      unfold oob at hbu
      push_neg at hbu
      have htrue : hasNeighborSame g B t = true := by
        unfold hasNeighborSame
        simp only [Bool.or_eq_true, Bool.and_eq_true, decide_eq_true_eq, List.any_eq_true]
        rcases hadj with ⟨h1, h2⟩ | ⟨h1, h2⟩ | ⟨h1, h2⟩ | ⟨h1, h2⟩
        · exact Or.inl (Or.inl (Or.inl ⟨by omega, u, hu, h1, h2, hval⟩))
        · exact Or.inl (Or.inl (Or.inr ⟨by omega, u, hu, h1, h2, hval⟩))
        · exact Or.inl (Or.inr ⟨by omega, u, hu, h1, h2, hval⟩)
        · exact Or.inr ⟨by omega, u, hu, h1, h2, hval⟩
      rw [List.all_eq_true] at hall
      have := hall t ht
      rw [htrue] at this
      simp at this
    · rintro ⟨_, hfree⟩
      rw [List.all_eq_true]
      intro t ht
      simp only [Bool.not_eq_true']
      by_contra hcon
      rw [Bool.not_eq_false] at hcon
      unfold hasNeighborSame at hcon
      simp only [Bool.or_eq_true, Bool.and_eq_true, decide_eq_true_eq,
        List.any_eq_true] at hcon
      rcases hcon with ((⟨_, u, hu, h1, h2, hval⟩ | ⟨_, u, hu, h1, h2, hval⟩) |
        ⟨_, u, hu, h1, h2, hval⟩) | ⟨_, u, hu, h1, h2, hval⟩
      · exact hfree t ht u hu (Or.inl ⟨h1, h2⟩) hval
      · exact hfree t ht u hu (Or.inr (Or.inl ⟨h1, h2⟩)) hval
      · exact hfree t ht u hu (Or.inr (Or.inr (Or.inl ⟨h1, h2⟩))) hval
      · exact hfree t ht u hu (Or.inr (Or.inr (Or.inr ⟨h1, h2⟩))) hval

/-- The short-circuit of line 301: a board that does not fill the grid is
never game-over, whatever its contents. -/
theorem isGameOver_short {g : Nat} {B : List Tile} (hlt : B.length < g * g) :
    isGameOverState g B = false := by
  unfold isGameOverState
  rw [if_pos hlt]

/-! The progression tracker. -/

theorem contains_iff {A : List String} {a : String} : A.contains a = true ↔ a ∈ A :=
  List.elem_iff

theorem mem_ite_singleton {P : Prop} [Decidable P] {a x : String} :
    a ∈ (if P then [x] else ([] : List String)) ↔ P ∧ a = x := by
  by_cases h : P
  · rw [if_pos h]
    simp [h]
  · rw [if_neg h]
    simp [h]

/-- Exactly which ids `checkAchievements` unlocks: the five fixed thresholds,
each gated on not being already persisted.  The reach-win id `reach2048` is
never among them. -/
theorem checkAchievements_mem (s m : Nat) (B : List Tile) (A : List String) (a : String) :
    a ∈ checkAchievements s m B A ↔
      ((1000 ≤ s ∧ ¬ (A.contains "score1000" = true)) ∧ a = "score1000") ∨
      ((10000 ≤ s ∧ ¬ (A.contains "score10000" = true)) ∧ a = "score10000") ∨
      ((100 ≤ m ∧ ¬ (A.contains "moves100" = true)) ∧ a = "moves100") ∨
      ((512 ≤ maxTileValue B ∧ ¬ (A.contains "tile512" = true)) ∧ a = "tile512") ∨
      ((1024 ≤ maxTileValue B ∧ ¬ (A.contains "tile1024" = true)) ∧ a = "tile1024") := by
  unfold checkAchievements
  simp only [List.mem_append, mem_ite_singleton]
  simp only [or_assoc]

theorem mem_addAchievements {A N : List String} {x : String} :
    x ∈ addAchievements A N ↔ x ∈ A ∨ (x ∈ N ∧ ¬ (A.contains x = true)) := by
  unfold addAchievements
  by_cases h : 0 < (N.filter fun a => !(A.contains a)).length
  · rw [if_pos h]
    rw [List.mem_append, List.mem_filter]
    simp [Bool.not_eq_true']
  · rw [if_neg h]
    constructor
    · exact Or.inl
    · rintro (hx | ⟨hxN, hxc⟩)
      · exact hx
      · exfalso
        apply h
        apply List.length_pos.mpr
        have hxf : x ∈ N.filter fun a => !(A.contains a) := by
          rw [List.mem_filter]
          refine ⟨hxN, ?_⟩
          simp only [Bool.not_eq_true']
          exact Bool.not_eq_true _ ▸ hxc
        exact List.ne_nil_of_mem hxf

/-- The reach-win id is never unlocked by the progression evaluation; the
source grants it only through the merge-time victory check. -/
theorem checkAchievements_not_reach2048 (s m : Nat) (B : List Tile) (A : List String) :
    "reach2048" ∉ checkAchievements s m B A := by
  rw [checkAchievements_mem]
  rintro (h | h | h | h | h) <;> exact absurd h.2 (by decide)

/-- Ids already persisted never fire again. -/
theorem checkAchievements_no_refire (s m : Nat) (B : List Tile) (A : List String)
    (a : String) (h : A.contains a = true) : a ∉ checkAchievements s m B A := by
  rw [checkAchievements_mem]
  rintro (⟨⟨_, hnc⟩, rfl⟩ | ⟨⟨_, hnc⟩, rfl⟩ | ⟨⟨_, hnc⟩, rfl⟩ | ⟨⟨_, hnc⟩, rfl⟩ |
    ⟨⟨_, hnc⟩, rfl⟩) <;> exact hnc h

/-- Re-evaluating at the same state right after unlocking yields nothing
new. -/
theorem checkAchievements_idem (s m : Nat) (B : List Tile) (A : List String) :
    checkAchievements s m B (addAchievements A (checkAchievements s m B A)) = [] := by
  rw [List.eq_nil_iff_forall_not_mem]
  intro a ha
  have key : ∀ id : String, id ∈ checkAchievements s m B A ∨ A.contains id = true →
      (addAchievements A (checkAchievements s m B A)).contains id = true := by
    intro id h
    rw [contains_iff, mem_addAchievements]
    rcases h with h | h
    · by_cases hc : A.contains id = true
      · exact Or.inl (contains_iff.mp hc)
      · exact Or.inr ⟨h, hc⟩
    · exact Or.inl (contains_iff.mp h)
  rw [checkAchievements_mem] at ha
  rcases ha with ⟨⟨hth, hnc⟩, rfl⟩ | ⟨⟨hth, hnc⟩, rfl⟩ | ⟨⟨hth, hnc⟩, rfl⟩ |
    ⟨⟨hth, hnc⟩, rfl⟩ | ⟨⟨hth, hnc⟩, rfl⟩
  · refine hnc (key _ ?_)
    by_cases hc : A.contains "score1000" = true
    · exact Or.inr hc
    · exact Or.inl (by rw [checkAchievements_mem]; exact Or.inl ⟨⟨hth, hc⟩, rfl⟩)
  · refine hnc (key _ ?_)
    by_cases hc : A.contains "score10000" = true
    · exact Or.inr hc
    · exact Or.inl (by rw [checkAchievements_mem]; exact Or.inr (Or.inl ⟨⟨hth, hc⟩, rfl⟩))
  · refine hnc (key _ ?_)
    by_cases hc : A.contains "moves100" = true
    · exact Or.inr hc
    · exact Or.inl (by
        rw [checkAchievements_mem]
        exact Or.inr (Or.inr (Or.inl ⟨⟨hth, hc⟩, rfl⟩)))
  · refine hnc (key _ ?_)
    by_cases hc : A.contains "tile512" = true
    · exact Or.inr hc
    · exact Or.inl (by
        rw [checkAchievements_mem]
        exact Or.inr (Or.inr (Or.inr (Or.inl ⟨⟨hth, hc⟩, rfl⟩))))
  · refine hnc (key _ ?_)
    by_cases hc : A.contains "tile1024" = true
    · exact Or.inr hc
    · exact Or.inl (by
        rw [checkAchievements_mem]
        exact Or.inr (Or.inr (Or.inr (Or.inr ⟨⟨hth, hc⟩, rfl⟩))))

/-! An effective move always leaves room for the spawn. -/

theorem length_lt_of_empty_cell {g : Nat} {B : List Tile} {r c : Int}
    (hv : ValidBoard g B) (hrc : ¬ oob g r c)
    (hemp : ∀ u ∈ B, ¬ (u.row = r ∧ u.col = c)) : B.length < g * g := by
  obtain ⟨_, hpnd, hbnd⟩ := hv
  have hnd : (B.map fun t => (t.row, t.col)).Nodup := by
    refine List.Pairwise.map _ (fun a b h heq => ?_) hpnd
    exact h ⟨congrArg Prod.fst heq, congrArg Prod.snd heq⟩
  have hrc' : (r, c) ∈ Finset.Ico (0 : Int) (g : Int) ×ˢ Finset.Ico (0 : Int) (g : Int) := by
    unfold oob at hrc
    rw [Finset.mem_product, Finset.mem_Ico, Finset.mem_Ico]
    constructor
    · constructor <;> omega
    · constructor <;> omega
  have hsub : (B.map fun t => (t.row, t.col)).toFinset ⊆
      (Finset.Ico (0 : Int) (g : Int) ×ˢ Finset.Ico (0 : Int) (g : Int)).erase (r, c) := by
    intro p hp
    rw [List.mem_toFinset, List.mem_map] at hp
    obtain ⟨t, htB, rfl⟩ := hp
    rw [Finset.mem_erase]
    constructor
    · intro heq
      exact hemp t htB ⟨congrArg Prod.fst heq, congrArg Prod.snd heq⟩
    · have := hbnd t htB
      unfold oob at this
      rw [Finset.mem_product, Finset.mem_Ico, Finset.mem_Ico]
      constructor
      · constructor <;> omega
      · constructor <;> omega
  have hcard := Finset.card_le_card hsub
  rw [Finset.card_erase_of_mem hrc'] at hcard
  rw [List.toFinset_card_of_nodup hnd, List.length_map, Finset.card_product,
    Int.card_Ico] at hcard
  have hg : 0 < g := by
    unfold oob at hrc
    push_neg at hrc
    omega
  have hgg : ((g : Int) - 0).toNat = g := by omega
  rw [hgg] at hcard
  have : 0 < g * g := Nat.mul_pos hg hg
  omega

theorem resolve_spawn_room {g : Nat} {dir : Dir} {B : List Tile} (hv : ValidBoard g B)
    (hch : (resolveMove g B dir).changed = true) :
    (resolveMove g B dir).newBoard.length < g * g := by
  have hinv := @resolveMoveEv_inv g dir B hv
  have hch' : (resolveMoveEv g B dir).1.changed = true := by
    rw [resolveMoveEv_fst]
    exact hch
  rcases hinv.changedRoom hch' with hm | ⟨r, c, hrc, hemp⟩
  · have hev : (resolveMoveEv g B dir).2 ≠ [] := by
      intro h
      have := hinv.mergeIff.mpr h
      rw [hm] at this
      cases this
    have hevpos : 0 < (resolveMoveEv g B dir).2.length := List.length_pos.mpr hev
    have hlen := @resolve_len g dir B hv
    have hlenB := valid_length_le hv
    omega
  · refine length_lt_of_empty_cell (@resolve_board_valid g dir B hv) hrc ?_
    rw [← resolveMoveEv_fst]
    exact hemp

/-! Merge events force `changed`, with no validity assumptions. -/

theorem processTile_changed_mono {g : Nat} {dir : Dir} {st : ResolveState} {t : Tile}
    (h : st.changed = true) : (processTile g dir st t).changed = true := by
  unfold processTile
  cases hw : walk g st.newBoard t.value dir (g + 1) t.row t.col with
  | merge w nr nc => rfl
  | stop nr nc =>
      dsimp only
      by_cases hc : nr = t.row ∧ nc = t.col
      · rw [if_pos hc]
        exact h
      · rw [if_neg hc]

theorem foldl_events_changed {g : Nat} {dir : Dir} :
    ∀ (l : List Tile) (p : ResolveState × List MergeEvent),
    (p.2 ≠ [] → p.1.changed = true) →
    (l.foldl (processTileEv g dir) p).2 ≠ [] →
    (l.foldl (processTileEv g dir) p).1.changed = true := by
  intro l
  induction l with
  | nil => exact fun p hp => hp
  | cons t tl ih =>
      intro p hp
      rw [List.foldl_cons]
      refine ih _ ?_
      intro hne
      show (processTile g dir p.1 t).changed = true
      by_cases hev : stepEvents g dir p.1 t = []
      · have hp2 : p.2 ≠ [] := by
          intro h2
          apply hne
          show p.2 ++ stepEvents g dir p.1 t = []
          rw [h2, hev]
          rfl
        exact processTile_changed_mono (hp hp2)
      · unfold stepEvents at hev
        unfold processTile
        cases hw : walk g p.1.newBoard t.value dir (g + 1) t.row t.col with
        | merge w nr nc => rfl
        | stop nr nc =>
            rw [hw] at hev
            exact absurd rfl hev

theorem resolveEv_events_changed {g : Nat} {B : List Tile} {dir : Dir}
    (h : (resolveMoveEv g B dir).2 ≠ []) : (resolveMoveEv g B dir).1.changed = true := by
  exact foldl_events_changed _ _ (fun h' => absurd rfl h') h

/-! The session-level move. -/

theorem sessionMove_not_playing {g : Nat} {s : Session} {dir : Dir} {r1 r2 : ℚ}
    (h : s.gameState ≠ GameState.playing) : sessionMove g s dir r1 r2 = (s, 0) := by
  unfold sessionMove
  rw [if_pos h]

/-- The number of victory firings of a move in the playing state: one per
merge that created a 2048 tile, unless the reach-win achievement is already
persisted. -/
theorem sessionMove_snd {g : Nat} {s : Session} {dir : Dir} {r1 r2 : ℚ}
    (hgp : s.gameState = GameState.playing) :
    (sessionMove g s dir r1 r2).2 =
      if s.achievements.contains "reach2048" then 0
      else ((resolveMoveEv g s.board dir).2.filter fun e => decide (e.value = 2048)).length := by
  unfold sessionMove
  rw [if_neg (by simp [hgp])]
  dsimp only
  split
  · rfl
  · split <;> rfl

theorem sessionMove_achievements {g : Nat} {s : Session} {dir : Dir} {r1 r2 : ℚ}
    (hgp : s.gameState = GameState.playing) :
    (sessionMove g s dir r1 r2).1.achievements =
      if 0 < (sessionMove g s dir r1 r2).2 then s.achievements ++ ["reach2048"]
      else s.achievements := by
  rw [sessionMove_snd hgp]
  unfold sessionMove
  rw [if_neg (by simp [hgp])]
  dsimp only
  split
  · rfl
  · split <;> rfl

theorem sessionMove_achievements_mono {g : Nat} {s : Session} {dir : Dir} {r1 r2 : ℚ}
    {a : String} (ha : a ∈ s.achievements) :
    a ∈ (sessionMove g s dir r1 r2).1.achievements := by
  by_cases hg : s.gameState = GameState.playing
  · rw [sessionMove_achievements hg]
    split
    · exact List.mem_append.mpr (Or.inl ha)
    · exact ha
  · rw [sessionMove_not_playing hg]
    exact ha

theorem sessionMove_snd_contains {g : Nat} {s : Session} {dir : Dir} {r1 r2 : ℚ}
    (h : s.achievements.contains "reach2048" = true) :
    (sessionMove g s dir r1 r2).2 = 0 := by
  by_cases hg : s.gameState = GameState.playing
  · rw [sessionMove_snd hg, if_pos h]
  · rw [sessionMove_not_playing hg]

theorem sessionMove_gameState_of_changed {g : Nat} {s : Session} {dir : Dir} {r1 r2 : ℚ}
    (hgp : s.gameState = GameState.playing)
    (hch : (resolveMoveEv g s.board dir).1.changed = true) :
    (sessionMove g s dir r1 r2).1.gameState =
      if isGameOverState g
          (addNewTile g (resolveMoveEv g s.board dir).1.newBoard r1 r2 s.fresh) then
        GameState.gameOver
      else if 0 < (sessionMove g s dir r1 r2).2 then GameState.victory
      else s.gameState := by
  rw [sessionMove_snd hgp]
  unfold sessionMove
  rw [if_neg (by simp [hgp])]
  dsimp only
  rw [if_pos hch]

/-- A positive firing count certifies: the reach-win achievement was locked
before the move, is persisted after it, and the session lands in the Won
state unless the same move also ended the game. -/
theorem sessionMove_snd_pos {g : Nat} {s : Session} {dir : Dir} {r1 r2 : ℚ}
    (h : 0 < (sessionMove g s dir r1 r2).2) :
    s.achievements.contains "reach2048" = false ∧
      "reach2048" ∈ (sessionMove g s dir r1 r2).1.achievements ∧
      ((sessionMove g s dir r1 r2).1.gameState = GameState.victory ∨
        (sessionMove g s dir r1 r2).1.gameState = GameState.gameOver) := by
  by_cases hg : s.gameState = GameState.playing
  · have hc : s.achievements.contains "reach2048" = false := by
      by_contra hcc
      rw [Bool.not_eq_false] at hcc
      rw [sessionMove_snd_contains hcc] at h
      exact absurd h (by omega)
    have hmem : "reach2048" ∈ (sessionMove g s dir r1 r2).1.achievements := by
      rw [sessionMove_achievements hg, if_pos h]
      exact List.mem_append.mpr (Or.inr (List.mem_singleton.mpr rfl))
    have hfilter : 0 < ((resolveMoveEv g s.board dir).2.filter
        fun e => decide (e.value = 2048)).length := by
      have := @sessionMove_snd g s dir r1 r2 hg
      rw [this, if_neg (by rw [hc]; exact Bool.false_ne_true)] at h
      exact h
    have hev : (resolveMoveEv g s.board dir).2 ≠ [] := by
      intro hnil
      rw [hnil] at hfilter
      exact absurd hfilter (by simp)
    have hch := resolveEv_events_changed hev
    refine ⟨hc, hmem, ?_⟩
    rw [sessionMove_gameState_of_changed hg hch]
    by_cases hgo : isGameOverState g
        (addNewTile g (resolveMoveEv g s.board dir).1.newBoard r1 r2 s.fresh) = true
    · rw [if_pos hgo]
      exact Or.inr rfl
    · rw [if_neg hgo, if_pos h]
      exact Or.inl rfl
  · rw [sessionMove_not_playing hg] at h
    exact absurd h (by omega)

/-- A move with no legal slide leaves the component state untouched apart
from a possible transition to game over: `setBoard`, `setScore` and
`setMoveCount` are only called inside the `changed` branch, and no tile is
spawned. -/
theorem sessionMove_noLegal_frame {g : Nat} {s : Session} {dir : Dir} {r1 r2 : ℚ}
    (hgp : s.gameState = GameState.playing)
    (hpnd : s.board.Pairwise fun a b => ¬ samePos a b)
    (hnls : noLegalSlide g dir s.board) :
    (sessionMove g s dir r1 r2).1.board = s.board ∧
      (sessionMove g s dir r1 r2).1.score = s.score ∧
      (sessionMove g s dir r1 r2).1.moveCount = s.moveCount ∧
      (sessionMove g s dir r1 r2).2 = 0 := by
  have hres := resolveMoveEv_noLegal hpnd hnls
  unfold sessionMove
  rw [if_neg (by simp [hgp])]
  dsimp only
  rw [hres]
  dsimp only
  simp only [List.filter_nil, List.length_nil, ite_self, Bool.false_eq_true, if_false]
  split <;> exact ⟨rfl, rfl, rfl, rfl⟩

theorem playTrace_all_zero {g : Nat} :
    ∀ (ms : List (Dir × ℚ × ℚ)) (s : Session),
    s.achievements.contains "reach2048" = true → ∀ n ∈ (playTrace g s ms).2, n = 0 := by
  intro ms
  induction ms with
  | nil => intro s _ n hn; cases hn
  | cons m tl ih =>
      intro s hs n hn
      unfold playTrace at hn
      rcases List.mem_cons.mp hn with rfl | hn'
      · exact sessionMove_snd_contains hs
      · refine ih _ ?_ n hn'
        rw [contains_iff]
        exact sessionMove_achievements_mono (contains_iff.mp hs)

/-- Along any play trace, at most one move fires the victory event: the first
firing persists the reach-win achievement, and the persisted achievement
silences every later check. -/
theorem playTrace_once {g : Nat} :
    ∀ (ms : List (Dir × ℚ × ℚ)) (s : Session),
    ((playTrace g s ms).2.filter fun n => decide (0 < n)).length ≤ 1 := by
  intro ms
  induction ms with
  | nil => intro s; simp [playTrace]
  | cons m tl ih =>
      intro s
      unfold playTrace
      dsimp only
      rw [List.filter_cons]
      split
      · rename_i hpos
        rw [decide_eq_true_eq] at hpos
        have hcontains : ((sessionMove g s m.1 m.2.1 m.2.2).1).achievements.contains
            "reach2048" = true := by
          rw [contains_iff]
          exact (sessionMove_snd_pos hpos).2.1
        have hzero := @playTrace_all_zero g tl _ hcontains
        have : ((playTrace g (sessionMove g s m.1 m.2.1 m.2.2).1 tl).2.filter
            fun n => decide (0 < n)) = [] := by
          rw [List.filter_eq_nil_iff]
          intro n hn
          rw [hzero n hn]
          simp
        rw [this]
        simp
      · exact ih _

/-! Claim theorems. -/

/-- Claim C1 (amended).  The source guards the victory event with the
persisted achievement set, not with per-session state: each merge creating a
2048 tile fires the dialog and toast only while `reach2048` is not yet in the
persisted achievements (line 249), firing persists the id and moves the
session to the Won state unless the same move also fills the board to game
over; a persisted id silences the check in every later move — including
whole later sessions, since `initializeGame` does not clear achievements —
so the event fires in at most one move per persisted achievement-set
lifetime, play continues from Won via `continueAfterVictory`, and no move is
accepted outside the playing state. -/
theorem victoryFiring_policy :
    (∀ (g : Nat) (s : Session) (dir : Dir) (r1 r2 : ℚ),
        s.achievements.contains "reach2048" = true → (sessionMove g s dir r1 r2).2 = 0) ∧
    (∀ (g : Nat) (s : Session) (dir : Dir) (r1 r2 : ℚ), s.gameState = GameState.playing →
        (sessionMove g s dir r1 r2).2 =
          if s.achievements.contains "reach2048" then 0
          else ((resolveMoveEv g s.board dir).2.filter fun e =>
            decide (e.value = 2048)).length) ∧
    (∀ (g : Nat) (s : Session) (dir : Dir) (r1 r2 : ℚ), 0 < (sessionMove g s dir r1 r2).2 →
        s.achievements.contains "reach2048" = false ∧
          "reach2048" ∈ (sessionMove g s dir r1 r2).1.achievements ∧
          ((sessionMove g s dir r1 r2).1.gameState = GameState.victory ∨
            (sessionMove g s dir r1 r2).1.gameState = GameState.gameOver)) ∧
    (∀ (g : Nat) (s : Session) (dir : Dir) (r1 r2 : ℚ) (a : String), a ∈ s.achievements →
        a ∈ (sessionMove g s dir r1 r2).1.achievements) ∧
    (∀ (g : Nat) (s : Session) (ms : List (Dir × ℚ × ℚ)),
        ((playTrace g s ms).2.filter fun n => decide (0 < n)).length ≤ 1) ∧
    (∀ s : Session, (continueAfterVictory s).gameState = GameState.playing ∧
        (continueAfterVictory s).board = s.board ∧
        (continueAfterVictory s).score = s.score ∧
        (continueAfterVictory s).moveCount = s.moveCount ∧
        (continueAfterVictory s).achievements = s.achievements) ∧
    (∀ (g : Nat) (s : Session) (dir : Dir) (r1 r2 : ℚ), s.gameState ≠ GameState.playing →
        sessionMove g s dir r1 r2 = (s, 0)) :=
  ⟨fun _ _ _ _ _ => sessionMove_snd_contains,
   fun _ _ _ _ _ => sessionMove_snd,
   fun _ _ _ _ _ => sessionMove_snd_pos,
   fun _ _ _ _ _ _ => sessionMove_achievements_mono,
   fun _ s ms => playTrace_once ms s,
   fun _ => ⟨rfl, rfl, rfl, rfl, rfl⟩,
   fun _ _ _ _ _ => sessionMove_not_playing⟩

/-- Claim C1, counterexample to the claim as stated: in a session that starts
with the persisted `reach2048` achievement (as `loadGameData` restores after
an earlier winning session), the first merge that creates a 2048 tile does
not fire the victory event — victory is not per-session. -/
theorem victoryFiring_counterexample :
    ({ board := [mkT 0 1024 0 0, mkT 1 1024 0 1], score := 0, moveCount := 0,
       gameState := GameState.playing, achievements := ["reach2048"],
       fresh := 5 } : Session).gameState = GameState.playing ∧
    (resolveMoveEv 4 [mkT 0 1024 0 0, mkT 1 1024 0 1] Dir.left).2 =
      [{ moverKey := 1, targetKey := 0, value := 2048 }] ∧
    (sessionMove 4
      { board := [mkT 0 1024 0 0, mkT 1 1024 0 1], score := 0, moveCount := 0,
        gameState := GameState.playing, achievements := ["reach2048"], fresh := 5 }
      Dir.left 0 0).2 = 0 :=
  ⟨rfl, by decide, by decide⟩

/-- Claim C1, witness. -/
theorem victoryFiring_policy_witness :
    (sessionMove 4
      { board := [mkT 0 2 0 0], score := 0, moveCount := 0,
        gameState := GameState.playing, achievements := ["reach2048"], fresh := 3 }
      Dir.left 0 0).2 = 0 :=
  victoryFiring_policy.1 4 _ Dir.left 0 0 (by decide)

/-- Claim C2 (amended).  Merging conserves the total tile value: a merge
removes two tiles of value `v` and pushes one of value `2v`, so the board sum
after an effective move equals the sum before it plus only the spawned tile's
value (2 or 4, by the value draw); the `scoreDelta` is the sum of the merged
values and is not added to the board sum.  An effective move always leaves an
empty cell, so the spawn always succeeds. -/
theorem massConservation_amended (g : Nat) (dir : Dir) (B : List Tile) (r1 r2 : ℚ) (k : Nat)
    (hv : ValidBoard g B) (hch : (resolveMove g B dir).changed = true)
    (h0 : 0 ≤ r1) (h1 : r1 < 1) :
    sumValues (addNewTile g (resolveMove g B dir).newBoard r1 r2 k) =
      sumValues B + (if r2 < (9 : ℚ) / 10 then 2 else 4) ∧
    (resolveMove g B dir).scoreDelta = ((resolveMoveEv g B dir).2.map MergeEvent.value).sum := by
  have hroom := resolve_spawn_room hv hch
  have hv' := @resolve_board_valid g dir B hv
  have hlen := emptyCells_pos hv' hroom
  obtain ⟨i, hi, heq⟩ :=
    @addNewTile_range g (resolveMove g B dir).newBoard r1 r2 k hlen h0 h1
  constructor
  · rw [heq]
    have hsum := @resolve_sum g dir B hv
    unfold sumValues at hsum ⊢
    rw [List.map_append, List.sum_append, hsum]
    simp
  · exact @resolve_delta_events g dir B hv

/-- Claim C2, counterexample to the claim as stated: the row `[2,2,_,_]`
moved left merges into a single 4, the spawn (under draws 0,0) adds a 2; the
resulting sum is 6 = 4 + 2, not sum-before + scoreDelta + spawn = 4 + 4 + 2 =
10.  Merges do not add the score delta to the board mass. -/
theorem massConservation_counterexample :
    sumValues [mkT 0 2 0 0, mkT 1 2 0 1] = 4 ∧
    (resolveMove 4 [mkT 0 2 0 0, mkT 1 2 0 1] Dir.left).scoreDelta = 4 ∧
    sumValues (addNewTile 4
      (resolveMove 4 [mkT 0 2 0 0, mkT 1 2 0 1] Dir.left).newBoard 0 0 7) = 6 ∧
    (6 : Nat) ≠ 4 + 4 + 2 := by
  refine ⟨by decide, by decide, ?_, by decide⟩
  have hboard : (resolveMove 4 [mkT 0 2 0 0, mkT 1 2 0 1] Dir.left).newBoard =
      [{ mkT 1 4 0 0 with justMerged := true }] := by decide
  rw [hboard]
  have hspec := @addNewTile_spec 4 [{ mkT 1 4 0 0 with justMerged := true }] 0 0 7 0
    (by decide) (by simp) (by simp)
  rw [hspec, if_pos (by norm_num : (0 : ℚ) < 9 / 10)]
  decide

/-- Claim C2, witness. -/
theorem massConservation_amended_witness :
    sumValues (addNewTile 4 (resolveMove 4 [mkT 0 2 0 0, mkT 1 2 0 1] Dir.left).newBoard
        0 0 7) =
      sumValues [mkT 0 2 0 0, mkT 1 2 0 1] + (if (0 : ℚ) < (9 : ℚ) / 10 then 2 else 4) :=
  (massConservation_amended 4 Dir.left [mkT 0 2 0 0, mkT 1 2 0 1] 0 0 7 (by decide)
    (by decide) (le_refl 0) zero_lt_one).1

/-- Claim C3.  On a board satisfying the data-model invariant (unique in-grid
positions), `isGameOverState` returns true exactly when the board holds
`gridSize * gridSize` tiles and no tile has an orthogonally adjacent tile of
equal value; and a board with fewer than `gridSize * gridSize` tiles is never
game-over, whatever it contains. -/
theorem gameOver_characterization :
    (∀ (g : Nat) (B : List Tile), ValidBoard g B →
        (isGameOverState g B = true ↔
          B.length = g * g ∧ ∀ t ∈ B, ∀ u ∈ B, adjacentTo u t → u.value ≠ t.value)) ∧
    (∀ (g : Nat) (B : List Tile), B.length < g * g → isGameOverState g B = false) :=
  ⟨fun _ _ hv => isGameOver_iff hv, fun _ _ hlt => isGameOver_short hlt⟩

/-- Claim C3, witness: a full 2-by-2 checkerboard is game-over; with one
adjacent equal pair it is not. -/
theorem gameOver_characterization_witness :
    isGameOverState 2 [mkT 0 2 0 0, mkT 1 4 0 1, mkT 2 4 1 0, mkT 3 2 1 1] = true ∧
    isGameOverState 2 [mkT 0 2 0 0, mkT 1 4 0 1, mkT 2 2 1 0, mkT 3 2 1 1] = false :=
  ⟨(gameOver_characterization.1 2 [mkT 0 2 0 0, mkT 1 4 0 1, mkT 2 4 1 0, mkT 3 2 1 1]
      (by decide)).mpr (by decide),
   by
    have h := (gameOver_characterization.1 2
      [mkT 0 2 0 0, mkT 1 4 0 1, mkT 2 2 1 0, mkT 3 2 1 1] (by decide))
    by_contra hc
    rw [Bool.not_eq_false] at hc
    have := (h.mp hc).2 (mkT 3 2 1 1) (by decide) (mkT 2 2 1 0) (by decide) (by decide)
    exact this rfl⟩

/-- Claim C4.  Within one resolution pass no tile participates in two merges:
all keys occurring in the pass's merge events — movers and targets alike,
where the merged result keeps the mover's identity — are pairwise distinct.
The scenarios confirm it concretely: `[2,2,4,_]` moved left gives `[4,4,_,_]`
with score delta 4 (the pre-existing 4 does not merge with the new 4), and
`[2,2,2,_]` moved left gives `[4,2,_,_]` with score delta 4 (no chain
merge). -/
theorem no_double_merge :
    (∀ (g : Nat) (dir : Dir) (B : List Tile), ValidBoard g B →
        (partKeys (resolveMoveEv g B dir).2).Nodup) ∧
    (resolveMove 4 [mkT 0 2 0 0, mkT 1 2 0 1, mkT 2 4 0 2] Dir.left).newBoard =
      [mkT 2 4 0 1, { mkT 1 4 0 0 with justMerged := true }] ∧
    (resolveMove 4 [mkT 0 2 0 0, mkT 1 2 0 1, mkT 2 4 0 2] Dir.left).scoreDelta = 4 ∧
    (resolveMove 4 [mkT 0 2 0 0, mkT 1 2 0 1, mkT 2 2 0 2] Dir.left).newBoard =
      [mkT 2 2 0 1, { mkT 1 4 0 0 with justMerged := true }] ∧
    (resolveMove 4 [mkT 0 2 0 0, mkT 1 2 0 1, mkT 2 2 0 2] Dir.left).scoreDelta = 4 :=
  ⟨fun _ _ _ hv => resolve_events_nodup hv, by decide, by decide, by decide, by decide⟩

/-- Claim C4, witness. -/
theorem no_double_merge_witness :
    (partKeys (resolveMoveEv 4 [mkT 0 2 0 0, mkT 1 2 0 1, mkT 2 2 0 2] Dir.left).2).Nodup :=
  no_double_merge.1 4 Dir.left [mkT 0 2 0 0, mkT 1 2 0 1, mkT 2 2 0 2] (by decide)

/-- Claim C5.  When no tile of the board can slide or merge in the requested
direction, the resolver reports `changed = false` with the board unmodified
(up to the flag-clearing clone) and zero score delta, and the session neither
spawns a tile nor increments the move count nor touches the score; the
spec's scenario `[2,4,2,_]` moved left confirms it concretely. -/
theorem noLegalSlide_frame :
    (∀ (g : Nat) (dir : Dir) (B : List Tile), ValidBoard g B → noLegalSlide g dir B →
        resolveMove g B dir =
          { newBoard := B.map clearFlags, scoreDelta := 0, changed := false,
            mergeHappened := false }) ∧
    (∀ (g : Nat) (s : Session) (dir : Dir) (r1 r2 : ℚ), s.gameState = GameState.playing →
        ValidBoard g s.board → noLegalSlide g dir s.board →
        (sessionMove g s dir r1 r2).1.board = s.board ∧
          (sessionMove g s dir r1 r2).1.score = s.score ∧
          (sessionMove g s dir r1 r2).1.moveCount = s.moveCount ∧
          (sessionMove g s dir r1 r2).2 = 0) ∧
    (resolveMove 4 [mkT 0 2 0 0, mkT 1 4 0 1, mkT 2 2 0 2] Dir.left).changed = false ∧
    (resolveMove 4 [mkT 0 2 0 0, mkT 1 4 0 1, mkT 2 2 0 2] Dir.left).newBoard =
      [mkT 0 2 0 0, mkT 1 4 0 1, mkT 2 2 0 2] ∧
    (resolveMove 4 [mkT 0 2 0 0, mkT 1 4 0 1, mkT 2 2 0 2] Dir.left).scoreDelta = 0 :=
  ⟨fun _ _ _ hv hnls => resolve_noLegal_state hv.2.1 hnls,
   fun _ _ _ _ _ hgp hv hnls => sessionMove_noLegal_frame hgp hv.2.1 hnls,
   by decide, by decide, by decide⟩

/-- Claim C5, witness. -/
theorem noLegalSlide_frame_witness :
    (sessionMove 4
      { board := [mkT 0 2 0 0, mkT 1 4 0 1, mkT 2 2 0 2], score := 7, moveCount := 3,
        gameState := GameState.playing, achievements := [], fresh := 9 }
      Dir.left 0 0).1.board = [mkT 0 2 0 0, mkT 1 4 0 1, mkT 2 2 0 2] ∧
    (sessionMove 4
      { board := [mkT 0 2 0 0, mkT 1 4 0 1, mkT 2 2 0 2], score := 7, moveCount := 3,
        gameState := GameState.playing, achievements := [], fresh := 9 }
      Dir.left 0 0).1.score = 7 ∧
    (sessionMove 4
      { board := [mkT 0 2 0 0, mkT 1 4 0 1, mkT 2 2 0 2], score := 7, moveCount := 3,
        gameState := GameState.playing, achievements := [], fresh := 9 }
      Dir.left 0 0).1.moveCount = 3 ∧
    (sessionMove 4
      { board := [mkT 0 2 0 0, mkT 1 4 0 1, mkT 2 2 0 2], score := 7, moveCount := 3,
        gameState := GameState.playing, achievements := [], fresh := 9 }
      Dir.left 0 0).2 = 0 :=
  noLegalSlide_frame.2.1 4
    { board := [mkT 0 2 0 0, mkT 1 4 0 1, mkT 2 2 0 2], score := 7, moveCount := 3,
      gameState := GameState.playing, achievements := [], fresh := 9 }
    Dir.left 0 0 rfl (by decide) (by decide)

/-- Claim C6 (amended).  Resolving twice in the same direction without an
intervening spawn yields `changed = false` on the second application
provided the first application merged nothing (`mergeHappened = false`): a
merge-free settled board has every tile blocked by the wall or by an unequal
neighbour.  Full idempotence fails because a merge can create a new adjacent
equal pair, which the next slide in the same direction merges again. -/
theorem slide_idempotent_no_merge (g : Nat) (dir : Dir) (B : List Tile)
    (hv : ValidBoard g B) (h : (resolveMove g B dir).mergeHappened = false) :
    (resolveMove g (resolveMove g B dir).newBoard dir).changed = false :=
  resolve_twice_unchanged hv h

/-- Claim C6, counterexample to the claim as stated: `[4,2,2,_]` moved left
gives `[4,4,_,_]` (changed), and a second left move merges the two 4s, so
`changed = true` again. -/
theorem slide_idempotent_counterexample :
    ValidBoard 4 [mkT 0 4 0 0, mkT 1 2 0 1, mkT 2 2 0 2] ∧
    (resolveMove 4 [mkT 0 4 0 0, mkT 1 2 0 1, mkT 2 2 0 2] Dir.left).changed = true ∧
    (resolveMove 4
      (resolveMove 4 [mkT 0 4 0 0, mkT 1 2 0 1, mkT 2 2 0 2] Dir.left).newBoard
      Dir.left).changed = true := by
  refine ⟨by decide, by decide, by decide⟩

/-- Claim C6, witness. -/
theorem slide_idempotent_no_merge_witness :
    (resolveMove 4 (resolveMove 4 [mkT 0 2 0 1] Dir.left).newBoard Dir.left).changed = false :=
  slide_idempotent_no_merge 4 Dir.left [mkT 0 2 0 1] (by decide) (by decide)

/-- Claim C7.  On a full board the spawn is a silent no-op.  On a board with
`n` empty cells, a cell draw `r1` with `i ≤ r1·n < i+1` — that is, `r1` in
`[i/n, (i+1)/n)`, an interval of length `1/n`, the same for every `i`, which
is the uniform-choice contract of `Math.floor(Math.random()*n)` — adds
exactly one tile on the `i`-th empty cell (row-major), with value 2 when the
value draw `r2` is below 9/10 and value 4 otherwise. -/
theorem spawn_characterization :
    (∀ (g : Nat) (B : List Tile) (r1 r2 : ℚ) (k : Nat), emptyCells g B = [] →
        addNewTile g B r1 r2 k = B) ∧
    (∀ (g : Nat) (B : List Tile) (r1 r2 : ℚ) (k : Nat) (i : Nat)
        (hi : i < (emptyCells g B).length),
        (i : ℚ) ≤ r1 * ((emptyCells g B).length : ℚ) →
        r1 * ((emptyCells g B).length : ℚ) < (i : ℚ) + 1 →
        addNewTile g B r1 r2 k =
          B ++ [{ value := if r2 < (9 : ℚ) / 10 then 2 else 4, key := k,
                  row := ((emptyCells g B).get ⟨i, hi⟩).1,
                  col := ((emptyCells g B).get ⟨i, hi⟩).2,
                  justMerged := false, isNew := true }]) :=
  ⟨fun _ _ _ _ _ h => addNewTile_full h,
   fun _ _ _ _ _ _ hi h1 h2 => addNewTile_spec hi h1 h2⟩

/-- Claim C7, witness: a full 2-by-2 board is untouched, and the empty 4-by-4
board under draw 0 receives its tile on the first empty cell. -/
theorem spawn_characterization_witness :
    addNewTile 2 [mkT 0 2 0 0, mkT 1 4 0 1, mkT 2 4 1 0, mkT 3 2 1 1] 0 0 9 =
      [mkT 0 2 0 0, mkT 1 4 0 1, mkT 2 4 1 0, mkT 3 2 1 1] ∧
    addNewTile 4 [] 0 0 9 =
      [] ++ [{ value := if (0 : ℚ) < (9 : ℚ) / 10 then 2 else 4, key := 9,
               row := ((emptyCells 4 []).get ⟨0, by decide⟩).1,
               col := ((emptyCells 4 []).get ⟨0, by decide⟩).2,
               justMerged := false, isNew := true }] :=
  ⟨spawn_characterization.1 2 [mkT 0 2 0 0, mkT 1 4 0 1, mkT 2 4 1 0, mkT 3 2 1 1] 0 0 9
      (by decide),
   spawn_characterization.2 4 [] 0 0 9 0 (by decide) (by simp) (by simp)⟩

/-- Claim C8 (amended).  The progression evaluation is a pure function of
score, move count, maximum tile value and the persisted set; it unlocks
exactly the five fixed rows score ≥ 1000, score ≥ 10000, moveCount ≥ 100,
maxTile ≥ 512 and maxTile ≥ 1024, each at most once per persisted
achievement-set lifetime, and re-evaluating right after unlocking adds
nothing; the reach-win achievement is not part of this table — it is granted
only by the merge-time victory check. -/
theorem progression_table :
    (∀ (s m : Nat) (B : List Tile) (A : List String) (a : String),
        a ∈ checkAchievements s m B A ↔
          ((1000 ≤ s ∧ ¬ (A.contains "score1000" = true)) ∧ a = "score1000") ∨
          ((10000 ≤ s ∧ ¬ (A.contains "score10000" = true)) ∧ a = "score10000") ∨
          ((100 ≤ m ∧ ¬ (A.contains "moves100" = true)) ∧ a = "moves100") ∨
          ((512 ≤ maxTileValue B ∧ ¬ (A.contains "tile512" = true)) ∧ a = "tile512") ∨
          ((1024 ≤ maxTileValue B ∧ ¬ (A.contains "tile1024" = true)) ∧ a = "tile1024")) ∧
    (∀ (s m : Nat) (B : List Tile) (A : List String),
        "reach2048" ∉ checkAchievements s m B A) ∧
    (∀ (s m : Nat) (B : List Tile) (A : List String) (a : String), A.contains a = true →
        a ∉ checkAchievements s m B A) ∧
    (∀ (s m : Nat) (B : List Tile) (A : List String),
        checkAchievements s m B (addAchievements A (checkAchievements s m B A)) = []) ∧
    (∀ (A N : List String) (x : String),
        x ∈ addAchievements A N ↔ x ∈ A ∨ (x ∈ N ∧ ¬ (A.contains x = true))) :=
  ⟨checkAchievements_mem, checkAchievements_not_reach2048, checkAchievements_no_refire,
   checkAchievements_idem, fun _ _ _ => mem_addAchievements⟩

/-- Claim C8, counterexample to the claim as stated: a board whose maximum
tile reaches the winning value does not make the progression evaluation
unlock the reach-win achievement — the fixed table it implements has only
five rows. -/
theorem progression_table_counterexample :
    winningValue ≤ maxTileValue [mkT 0 2048 0 0] ∧
    checkAchievements 0 0 [mkT 0 2048 0 0] [] = ["tile512", "tile1024"] ∧
    "reach2048" ∉ checkAchievements 0 0 [mkT 0 2048 0 0] [] := by
  refine ⟨by decide, by decide, by decide⟩

/-- Claim C8, witness. -/
theorem progression_table_witness :
    "score1000" ∉ checkAchievements 2500 0 [] ["score1000"] :=
  progression_table.2.2.1 2500 0 [] ["score1000"] "score1000" (by decide)

/-- Claim C9.  Starting from a board satisfying the data-model invariant, the
board at the end of a move — resolution followed by the spawn with a fresh
key and draws in range — again has pairwise distinct keys, at most one tile
per cell, and all coordinates inside the grid; and the two seed spawns of
`initializeGame` produce such a board. -/
theorem board_valid_after_move :
    (∀ (g : Nat) (dir : Dir) (B : List Tile) (r1 r2 : ℚ) (k : Nat),
        ValidBoard g B → k ∉ keysOf B → 0 ≤ r1 → r1 < 1 →
        ValidBoard g (addNewTile g (resolveMove g B dir).newBoard r1 r2 k)) ∧
    (∀ (g : Nat) (r1 r2 r3 r4 : ℚ), 0 ≤ r1 → r1 < 1 → 0 ≤ r3 → r3 < 1 →
        ValidBoard g (initialBoard g r1 r2 r3 r4)) := by
  constructor
  · intro g dir B r1 r2 k hv hk h0 h1
    have hv' := @resolve_board_valid g dir B hv
    have hk' : k ∉ keysOf (resolveMove g B dir).newBoard := by
      intro hmem
      obtain ⟨u, hu, hku⟩ := List.mem_map.mp hmem
      obtain ⟨t0, ht0, hk0, _, _⟩ := resolve_origin hv u hu
      exact hk (by rw [← hku, hk0]; exact List.mem_map_of_mem Tile.key ht0)
    exact addNewTile_preserves_valid hv' hk' h0 h1
  · intro g r1 r2 r3 r4 h0 h1 h2 h3
    have hvnil : ValidBoard g ([] : List Tile) :=
      ⟨List.Pairwise.nil, List.Pairwise.nil, fun t ht => absurd ht (List.not_mem_nil t)⟩
    have hv1 : ValidBoard g (addNewTile g [] r1 r2 0) :=
      addNewTile_preserves_valid hvnil (by simp [keysOf]) h0 h1
    have hk1 : 1 ∉ keysOf (addNewTile g [] r1 r2 0) := by
      by_cases hlen : 0 < (emptyCells g ([] : List Tile)).length
      · obtain ⟨i, hi, heq⟩ := @addNewTile_range g [] r1 r2 0 hlen h0 h1
        rw [heq]
        simp [keysOf]
      · have hnil : emptyCells g ([] : List Tile) = [] := by
          rw [← List.length_eq_zero]
          omega
        rw [addNewTile_full hnil]
        simp [keysOf]
    exact addNewTile_preserves_valid hv1 hk1 h2 h3

/-- Claim C9, witness. -/
theorem board_valid_after_move_witness :
    ValidBoard 4 (initialBoard 4 0 0 0 0) :=
  board_valid_after_move.2 4 0 0 0 0 (le_refl 0) zero_lt_one (le_refl 0) zero_lt_one

/-- Claim C10.  The resolver moves tiles only along the requested axis: every
tile of the resolved board descends from an input tile with the same key, in
the same row for a horizontal move and in the same column for a vertical
move (the merged tile keeps the moving tile's key and the common line). -/
theorem axis_preservation (g : Nat) (dir : Dir) (B : List Tile) (hv : ValidBoard g B) :
    ∀ u ∈ (resolveMove g B dir).newBoard, ∃ t0 ∈ B, u.key = t0.key ∧
      ((dir = Dir.left ∨ dir = Dir.right) → u.row = t0.row) ∧
      ((dir = Dir.up ∨ dir = Dir.down) → u.col = t0.col) := by
  intro u hu
  obtain ⟨t0, ht0, hk, hc, _⟩ := resolve_origin hv u hu
  refine ⟨t0, ht0, hk, ?_, ?_⟩
  · rintro (rfl | rfl) <;> simpa [crossOf] using hc
  · rintro (rfl | rfl) <;> simpa [crossOf] using hc

/-- Claim C10, witness. -/
theorem axis_preservation_witness :
    ∃ t0 ∈ [mkT 0 2 0 1], (mkT 0 2 0 0).key = t0.key ∧
      ((Dir.left = Dir.left ∨ Dir.left = Dir.right) → (mkT 0 2 0 0).row = t0.row) ∧
      ((Dir.left = Dir.up ∨ Dir.left = Dir.down) → (mkT 0 2 0 0).col = t0.col) :=
  axis_preservation 4 Dir.left [mkT 0 2 0 1] (by decide) (mkT 0 2 0 0) (by decide)

end Game2048
